import Mathlib

/-!
# A20 file splitter: segment planning, timecode propagation, probe-tag parsing

A shallow embedding of `src/splitter.js` (the per-file loop of `main` and the
size classification of the directory listing) and of `src/getFfdata.js`
(`parseFfprobeOutput`), followed by the properties proved about them.

Conventions of the embedding:

* JavaScript numbers are exact: a duration is a rational number of seconds, a
  sample count is an integer, and `NaN` is the `none` of `Option ℤ`.
* JavaScript strings are lists of characters (`Str`).
* A JavaScript object is the list of its own properties in insertion order;
  all statements about objects go through the lookup `getOwn`.
* A thrown `TypeError` is the `error` of `Except`.
-/

namespace A20

/-! ## `splitter.js`: the segment loop of `main` -/

/-- One iteration's outcome of the loop in `main`: the 1-based `segmentNum`, the
`-ss`/`-to` arguments and the `time_reference` stamped on the output file
(`none` is `NaN`). -/
structure Segment where
  segmentNum : ℕ
  startTime : ℚ
  endTime : ℚ
  timeReference : Option ℤ
  deriving DecidableEq

/-- The constant `sampleRate` of `main`. -/
def sampleRate : ℕ := 48000

/-- The constant `samplesPerDay` of `main`. -/
def samplesPerDay : ℤ := 4147200000

/-- The constant `maxDuration` of `main`. -/
def maxDuration : ℕ := 21000

/-- `Math.round(maxDuration * sampleRate)`. -/
def segmentDurationInSamples (maxDuration : ℕ) : ℤ :=
  round ((maxDuration : ℚ) * (sampleRate : ℚ))

/-- The `if (i > 0) { ... }` block of the loop body: from the second segment on
the running timecode is advanced by the samples of a full segment and reduced
modulo the samples of a day once it reaches that length. JavaScript's `%` is the
truncating remainder. A `NaN` timecode stays `NaN`. -/
def advanceTimecode (maxDuration : ℕ) (i : ℕ) (currentTimecode : Option ℤ) : Option ℤ :=
  if i > 0 then
    currentTimecode.map fun t =>
      let t1 := t + segmentDurationInSamples maxDuration
      if t1 ≥ samplesPerDay then t1.tmod samplesPerDay else t1
  else currentTimecode

/-- The loop `for (let i = 0; i < numOfSegments; i++)` of `main`, started at index
`i` with running timecode `currentTimecode`. The first argument bounds the number
of iterations; `splitSegments` passes the loop's own bound. -/
def segmentLoop (maxDuration : ℕ) (duration : ℚ) (numOfSegments : ℤ) :
    ℕ → ℕ → Option ℤ → List Segment
  | 0, _, _ => []
  | fuel + 1, i, currentTimecode =>
    if (i : ℤ) < numOfSegments then
      let startTime : ℚ := (i : ℚ) * (maxDuration : ℚ)
      let endTime : ℚ :=
        if (i : ℤ) = numOfSegments - 1 then duration else startTime + (maxDuration : ℚ)
      let tc := advanceTimecode maxDuration i currentTimecode
      { segmentNum := i + 1, startTime := startTime, endTime := endTime, timeReference := tc } ::
        segmentLoop maxDuration duration numOfSegments fuel (i + 1) tc
    else []

/-- `Math.ceil(duration / maxDuration)`. -/
def numOfSegments (maxDuration : ℕ) (duration : ℚ) : ℤ :=
  ⌈duration / (maxDuration : ℚ)⌉

/-- The segments `main` cuts from a file of the given duration, for a maximal
segment duration and an initial `time_reference`. -/
def splitSegments (maxDuration : ℕ) (duration : ℚ) (initialTimecode : Option ℤ) :
    List Segment :=
  segmentLoop maxDuration duration (numOfSegments maxDuration duration)
    (numOfSegments maxDuration duration).toNat 0 initialTimecode

/-- The segments of `main` with its constant `maxDuration = 21000`. -/
def mainSegments (duration : ℚ) (initialTimecode : Option ℤ) : List Segment :=
  splitSegments maxDuration duration initialTimecode

/-! ## JavaScript values -/

/-- A JavaScript string, as the list of its characters. -/
abbrev Str := List Char

/-- The exceptions the embedded code can throw. -/
inductive JsError
  | typeError
  deriving DecidableEq, Repr

/-- The values `JSON.parse` produces, and `undefined`. The numbers of ffprobe's
report are integers. -/
inductive Js
  | undefined
  | null
  | bool (b : Bool)
  | num (n : ℤ)
  | str (s : Str)
  | arr (xs : List Js)
  | obj (props : List (Str × Js))

/-- The own properties of an object, in insertion order. -/
abbrev Props := List (Str × Js)

/-- The value of the own property `key`, if the object has one. -/
def getOwn : Props → Str → Option Js
  | [], _ => none
  | (k, v) :: ps, key => if k = key then some v else getOwn ps key

/-- Creates the own data property `key`, or overwrites its value in place
(what a spread `{...a, ...b}` and an object literal do for each key). -/
def defineProp : Props → Str → Js → Props
  | [], key, v => [(key, v)]
  | (k, w) :: ps, key, v =>
    if k = key then (k, v) :: ps else (k, w) :: defineProp ps key v

/-- The property name whose assignment goes to the accessor inherited from
`Object.prototype`. -/
def protoKey : Str := "__proto__".toList

/-- The assignment `o[key] = v` on a plain object `o`, for a value `v` that is not
an object. An own property is overwritten, a new one is created, except for
`__proto__`: when `o` has no own property of that name the assignment runs the
setter inherited from `Object.prototype`, which ignores such a value and creates
no property. -/
def assignProp (ps : Props) (key : Str) (v : Js) : Props :=
  if key = protoKey ∧ (getOwn ps key).isNone then ps else defineProp ps key v

/-- The spread `{...target, ...source}`: every own property of `source` is
defined on a copy of `target`, in order. -/
def spread (target source : Props) : Props :=
  source.foldl (fun acc p => defineProp acc p.1 p.2) target

/-- JavaScript truthiness (`!x` is its negation). -/
def truthy : Js → Bool
  | .undefined => false
  | .null => false
  | .bool b => b
  | .num n => n != 0
  | .str s => !s.isEmpty
  | .arr _ => true
  | .obj _ => true

/-- The property read `x.name`, for a name that no prototype defines (the names
the code reads are `format`, `tags`, `comment`, `coding_history` and
`time_reference`): a `TypeError` on `undefined` and `null`, the own property of an
object, `undefined` otherwise. -/
def getProp (x : Js) (name : Str) : Except JsError Js :=
  match x with
  | .undefined => .error .typeError
  | .null => .error .typeError
  | .obj ps => .ok ((getOwn ps name).getD .undefined)
  | _ => .ok .undefined

/-! ## String operations of the runtime used by the code -/

/-- Puts a character in front of the first piece of a split. -/
def consHead (c : Char) : List Str → List Str
  | [] => [[c]]
  | x :: xs => (c :: x) :: xs

/-- `s.split(sep)` for a separator that matches exactly one character out of a
set: `split("=")` and `split(/,|;|\\/)`. -/
def splitOnChars (isSep : Char → Bool) : Str → List Str
  | [] => [[]]
  | c :: cs =>
    if isSep c then [] :: splitOnChars isSep cs
    else consHead c (splitOnChars isSep cs)

/-- `s.split(/\r\n/)`: the split at each carriage return followed by a line feed. -/
def splitCRLF : Str → List Str
  | [] => [[]]
  | [c] => [[c]]
  | c :: d :: cs =>
    if c = '\r' ∧ d = '\n' then [] :: splitCRLF cs
    else consHead c (splitCRLF (d :: cs))

/-- Whether `pat` is an initial part of the string. -/
def startsWith : Str → Str → Bool
  | [], _ => true
  | _ :: _, [] => false
  | p :: ps, c :: cs => p = c && startsWith ps cs

/-- `s.replace(pat, "")` for a pattern without wildcards and without the global
flag: the first occurrence of `pat` is removed. -/
def removeFirst (pat : Str) : Str → Str
  | [] => []
  | c :: cs =>
    if startsWith pat (c :: cs) then (c :: cs).drop pat.length
    else c :: removeFirst pat cs

/-- The text matched by `/\\r\\n/`: backslash, `r`, backslash, `n`. -/
def escapedCRLF : Str := ['\\', 'r', '\\', 'n']

/-- The separators of `/,|;|\\/`: comma, semicolon, backslash. -/
def isHistoryDelimiter (c : Char) : Bool :=
  c = ',' || c = ';' || c = '\\'

/-- The destructuring `[key, val] = item.split("=")`: the first two pieces of
the split, `val` being `undefined` (here `none`) when there is one piece only. -/
def keyVal (item : Str) : Str × Option Str :=
  match splitOnChars (fun c => c = '=') item with
  | [] => ([], none)
  | [key] => (key, none)
  | key :: val :: _ => (key, some val)

/-! ## `getFfdata.js`: `parseFfprobeOutput` -/

/-- The property name `format`. -/
def formatKey : Str := "format".toList

/-- The property name `tags`. -/
def tagsKey : Str := "tags".toList

/-- The property name `comment`. -/
def commentKey : Str := "comment".toList

/-- The property name `coding_history`. -/
def codingHistoryKey : Str := "coding_history".toList

/-- The property name `time_reference`. -/
def timeReferenceKey : Str := "time_reference".toList

/-- The value of `val` as a JavaScript value. -/
def valJs : Option Str → Js
  | some v => .str v
  | none => .undefined

/-- The callback of `splitComments.forEach`: `[key, val] = line.split("=")`, then
`if (key) parsedComments[key] = val`. -/
def commentStep (parsedComments : Props) (line : Str) : Props :=
  if (keyVal line).1 ≠ [] then
    assignProp parsedComments (keyVal line).1 (valJs (keyVal line).2)
  else parsedComments

/-- The `splitComments.forEach` of `parseFfprobeOutput`, from the empty
`parsedComments`. -/
def parseComments (splitComments : List Str) : Props :=
  splitComments.foldl commentStep []

/-- One step of the `codingHistoryArr.forEach`: `val.replace` throws on an
`undefined` `val`. -/
def codingHistoryStep (codingHistoryObj : Props) (item : Str) : Except JsError Props :=
  match (keyVal item).2 with
  | none => .error .typeError
  | some val =>
    .ok (assignProp codingHistoryObj (keyVal item).1 (.str (removeFirst escapedCRLF val)))

/-- The `codingHistoryArr.forEach` of `parseFfprobeOutput`, from the running
`codingHistoryObj`. -/
def parseCodingHistory : Props → List Str → Except JsError Props
  | codingHistoryObj, [] => .ok codingHistoryObj
  | codingHistoryObj, item :: rest =>
    match codingHistoryStep codingHistoryObj item with
    | .error e => .error e
    | .ok o => parseCodingHistory o rest

/-- The block `if (codingHistory) { ... }` on the `tags` object: the value
`tags.coding_history || ""` is decoded when truthy and stored back. A truthy
value that is not a string has no `split`. -/
def decodeCodingHistory (tags : Props) : Except JsError Props :=
  let codingHistory :=
    match getOwn tags codingHistoryKey with
    | some v => if truthy v then v else .str []
    | none => .str []
  if truthy codingHistory then
    match codingHistory with
    | .str h =>
      match parseCodingHistory [] (splitOnChars isHistoryDelimiter h) with
      | .error e => .error e
      | .ok codingHistoryObj => .ok (assignProp tags codingHistoryKey (.obj codingHistoryObj))
    | _ => .error .typeError
  else .ok tags

/-- The function `parseFfprobeOutput` on the result of `JSON.parse(outputData)`.
Past the two guards `ffdata`, its `format` and the `tags` are objects; a truthy
`comment` that is not a string has no `split`. The `tags` object is shared
between `ffdata.format` and `obj.format`, so both updates of it show in the
result; the final assignment throws when the spread has replaced `tags` by a
comment value. -/
def parseFfprobeOutput (ffdata : Js) : Except JsError Js :=
  match getProp ffdata formatKey with
  | .error e => .error e
  | .ok format =>
    match getProp format tagsKey with
    | .error e => .error e
    | .ok tags =>
      if !truthy tags then .ok ffdata
      else
        match getProp tags commentKey with
        | .error e => .error e
        | .ok comments =>
          if !truthy comments then .ok ffdata
          else
            match ffdata, format, tags, comments with
            | .obj top, .obj fmt, .obj tgs, .str c =>
              let parsedComments := parseComments (splitCRLF c)
              match decodeCodingHistory tgs with
              | .error e => .error e
              | .ok tgs1 =>
                let objFormat := spread (defineProp fmt tagsKey (.obj tgs1)) parsedComments
                match getOwn objFormat tagsKey with
                | some (.obj t) =>
                  .ok (.obj (defineProp top formatKey
                    (.obj (defineProp objFormat tagsKey
                      (.obj (assignProp t commentKey (.str [])))))))
                | _ => .error .typeError
            | _, _, _, _ => .error .typeError

/-! ## `splitter.js`: reading the initial `time_reference` -/

/-- The characters `parseInt` skips at the start of its argument. -/
def isStrWhiteSpace (c : Char) : Bool :=
  c.toNat ∈ [9, 10, 11, 12, 13, 32, 160, 0x1680, 0x2028, 0x2029, 0x202F, 0x205F, 0x3000, 0xFEFF]
    || (0x2000 ≤ c.toNat && c.toNat ≤ 0x200A)

/-- The value of a digit in the given radix. -/
def digitValue (radix : ℕ) (c : Char) : Option ℕ :=
  let v : Option ℕ :=
    if '0' ≤ c ∧ c ≤ '9' then some (c.toNat - '0'.toNat)
    else if 'a' ≤ c ∧ c ≤ 'z' then some (c.toNat - 'a'.toNat + 10)
    else if 'A' ≤ c ∧ c ≤ 'Z' then some (c.toNat - 'A'.toNat + 10)
    else none
  match v with
  | some d => if d < radix then some d else none
  | none => none

/-- The longest run of digits at the start of the string, read in the radix,
with the number of digits read. -/
def readDigits (radix : ℕ) : ℕ → ℕ → Str → ℕ × ℕ
  | acc, count, [] => (acc, count)
  | acc, count, c :: cs =>
    match digitValue radix c with
    | some d => readDigits radix (acc * radix + d) (count + 1) cs
    | none => (acc, count)

/-- The sign `parseInt` reads: whether it is a minus, and the rest of the string. -/
def stripSign : Str → Bool × Str
  | '-' :: r => (true, r)
  | '+' :: r => (false, r)
  | r => (false, r)

/-- The radix `parseInt` chooses when none is given: 16 after `0x` or `0X`,
10 otherwise, and the rest of the string. -/
def stripRadix : Str → ℕ × Str
  | '0' :: 'x' :: r => (16, r)
  | '0' :: 'X' :: r => (16, r)
  | r => (10, r)

/-- `parseInt(s)` with no radix given: leading white space, a sign, an optional
`0x`, then the longest run of digits; `NaN` when there is no digit. The value is
the exact integer the digits denote; the runtime returns the nearest double,
which is that integer as long as it does not exceed `2 ^ 53`. The statements
about the value read are made under that bound. -/
def parseInt (s : Str) : Option ℤ :=
  let signed := stripSign (s.dropWhile isStrWhiteSpace)
  let based := stripRadix signed.2
  let read := readDigits based.1 0 0 based.2
  if read.2 = 0 then none
  else some (if signed.1 then -(read.1 : ℤ) else (read.1 : ℤ))

mutual
/-- The string `parseInt` makes of its argument. An object without its own
`toString` prints as `[object Object]`, one with such a property (never a
function in parsed JSON) cannot be converted; an array prints its elements
joined by commas. -/
def toStr : Js → Except JsError Str
  | .undefined => .ok "undefined".toList
  | .null => .ok "null".toList
  | .bool true => .ok "true".toList
  | .bool false => .ok "false".toList
  | .num n => .ok (if n < 0 then '-' :: Nat.toDigits 10 n.natAbs else Nat.toDigits 10 n.natAbs)
  | .str s => .ok s
  | .arr xs => joinElements xs
  | .obj ps =>
    match getOwn ps "toString".toList with
    | some _ => .error .typeError
    | none => .ok "[object Object]".toList
/-- The elements of an array joined by commas. -/
def joinElements : List Js → Except JsError Str
  | [] => .ok []
  | [x] => elementStr x
  | x :: y :: rest =>
    match elementStr x, joinElements (y :: rest) with
    | .ok a, .ok b => .ok (a ++ ',' :: b)
    | .error e, _ => .error e
    | _, .error e => .error e
/-- The string of an array element: empty for `undefined` and `null`. -/
def elementStr : Js → Except JsError Str
  | .undefined => .ok []
  | .null => .ok []
  | .bool true => .ok "true".toList
  | .bool false => .ok "false".toList
  | .num n => .ok (if n < 0 then '-' :: Nat.toDigits 10 n.natAbs else Nat.toDigits 10 n.natAbs)
  | .str s => .ok s
  | .arr xs => joinElements xs
  | .obj ps =>
    match getOwn ps "toString".toList with
    | some _ => .error .typeError
    | none => .ok "[object Object]".toList
end

/-- The statement
`let currentTimecode = parseInt(fileData.format.tags.time_reference || 0)`. -/
def initialTimecode (fileData : Js) : Except JsError (Option ℤ) :=
  match getProp fileData formatKey with
  | .error e => .error e
  | .ok format =>
    match getProp format tagsKey with
    | .error e => .error e
    | .ok tags =>
      match getProp tags timeReferenceKey with
      | .error e => .error e
      | .ok timeReference =>
        match toStr (if truthy timeReference then timeReference else .num 0) with
        | .error e => .error e
        | .ok s => .ok (parseInt s)

/-- The body of the `try` of `main` for one large file, for the duration
`parseFloat(fileData.streams[0].duration)` taken as an exact number: the list of
segments cut, or the exception that the `catch` turns into a rejection. -/
def processFile (duration : ℚ) (fileData : Js) : Except JsError (List Segment) :=
  match initialTimecode fileData with
  | .error e => .error e
  | .ok currentTimecode => .ok (mainSegments duration currentTimecode)

/-! ## `splitter.js`: the classification of the directory listing -/

/-- What `fs.statSync` reports of a path, as far as `main` reads it. -/
structure Stats where
  isDirectory : Bool
  size : ℕ

/-- The two lists `main` fills and the calls of `fs.copyFileSync` it makes, as
pairs of source and destination path. -/
structure Classification where
  largeFiles : List Str
  smallFiles : List Str
  copies : List (Str × Str)

/-- The size from which a file is split. -/
def sizeThreshold : ℕ := 3840000172

/-- The extension `main` accepts. -/
def wavExtension : Str := ".wav".toList

/-- The callback of `files.forEach` in `main`, over the library functions
`path.join`, `path.parse(file).ext` and `fs.statSync`. A failing copy is caught
and logged and changes neither list. -/
def classifyFile (pathJoin : Str → Str → Str) (ext : Str → Str) (statSync : Str → Stats)
    (inputDir outputDir : Str) (st : Classification) (file : Str) : Classification :=
  let filePath := pathJoin inputDir file
  let extension := ext file
  if (statSync filePath).isDirectory || extension ≠ wavExtension then st
  else if (statSync filePath).size ≥ sizeThreshold then
    { st with largeFiles := st.largeFiles ++ [file] }
  else
    { st with
      smallFiles := st.smallFiles ++ [file]
      copies := st.copies ++ [(pathJoin inputDir file, pathJoin outputDir file)] }

/-- The `files.forEach` of `main` from the two empty lists. -/
def classifyFiles (pathJoin : Str → Str → Str) (ext : Str → Str) (statSync : Str → Stats)
    (inputDir outputDir : Str) (files : List Str) : Classification :=
  files.foldl (classifyFile pathJoin ext statSync inputDir outputDir)
    { largeFiles := [], smallFiles := [], copies := [] }

/-! ## Vocabulary of the statements -/

/-- The text of a comment or coding-history entry `KEY=VALUE`. -/
def entryLine (e : Str × Str) : Str :=
  e.1 ++ '=' :: e.2

/-- The lines of a comment, put together with a carriage return and a line feed
between consecutive lines. -/
def joinCRLF : List Str → Str
  | [] => []
  | [l] => l
  | l :: l' :: ls => l ++ '\r' :: '\n' :: joinCRLF (l' :: ls)

/-- Whether a carriage return directly followed by a line feed occurs in the
string. -/
def hasCRLF : Str → Bool
  | [] => false
  | [_] => false
  | c :: d :: cs => (c = '\r' && d = '\n') || hasCRLF (d :: cs)

/-- A first piece of text followed by further pieces, each with the separator
character that precedes it. -/
def joinWithSeps : Str → List (Char × Str) → Str
  | first, [] => first
  | first, (c, s) :: rest => first ++ c :: joinWithSeps s rest

/-- The `coding_history` tag, when present and truthy, is a string all of whose
entries between commas, semicolons and backslashes contain an `=`. -/
def HistoryDecodable (tags : Props) : Prop :=
  ∀ v, getOwn tags codingHistoryKey = some v → truthy v = true →
    ∃ h, v = .str h ∧ ∀ item ∈ splitOnChars isHistoryDelimiter h, '=' ∈ item

/-- The own properties of the `format` object of a returned probe result. -/
def formatOf : Except JsError Js → Option Props
  | .ok (.obj top) =>
    match getOwn top formatKey with
    | some (.obj fmt) => some fmt
    | _ => none
  | _ => none

/-- The own properties of the `format.tags` object of a returned probe result. -/
def tagsOf (r : Except JsError Js) : Option Props :=
  match formatOf r with
  | some fmt =>
    match getOwn fmt tagsKey with
    | some (.obj tgs) => some tgs
    | _ => none
  | none => none

/-- A listed name that is not a directory, has the extension `.wav` and a size
of at least 3840000172 bytes. -/
def isSplitCandidate (pathJoin : Str → Str → Str) (ext : Str → Str) (statSync : Str → Stats)
    (inputDir file : Str) : Bool :=
  !(statSync (pathJoin inputDir file)).isDirectory && decide (ext file = ".wav".toList) &&
    decide (3840000172 ≤ (statSync (pathJoin inputDir file)).size)

/-- A listed name that is not a directory, has the extension `.wav` and a size
below 3840000172 bytes. -/
def isCopyCandidate (pathJoin : Str → Str → Str) (ext : Str → Str) (statSync : Str → Stats)
    (inputDir file : Str) : Bool :=
  !(statSync (pathJoin inputDir file)).isDirectory && decide (ext file = ".wav".toList) &&
    decide ((statSync (pathJoin inputDir file)).size < 3840000172)

/-- The number a string of decimal digits denotes. -/
def decimalValue (s : Str) : ℕ :=
  s.foldl (fun acc c => acc * 10 + (c.toNat - '0'.toNat)) 0

/-! ## Example probe results -/

/-- A probe result with the given `format.tags` next to a `filename`. -/
def probeWithTags (tags : Props) : Js :=
  .obj [("streams".toList, .arr [.obj [("duration".toList, .str "45000.000000".toList)]]),
    (formatKey, .obj [("filename".toList, .str "a.wav".toList), (tagsKey, .obj tags)])]

/-- A probe result whose `format` has no `tags`. -/
def probeWithoutTags : Js :=
  .obj [("streams".toList, .arr [.obj [("duration".toList, .str "45000.000000".toList)]]),
    (formatKey, .obj [("filename".toList, .str "a.wav".toList)])]

/-- An example directory: what `fs.statSync` reports of each path. -/
def exampleStat (filePath : Str) : Stats :=
  if filePath = "in/big.wav".toList then { isDirectory := false, size := 5000000000 }
  else if filePath = "in/small.wav".toList then { isDirectory := false, size := 2000000000 }
  else if filePath = "in/edge.wav".toList then { isDirectory := false, size := 3840000172 }
  else if filePath = "in/takes.wav".toList then { isDirectory := true, size := 4096 }
  else { isDirectory := false, size := 5000000000 }

/-- The extensions `path.parse` reports for the names of the example directory. -/
def exampleExt (file : Str) : Str :=
  if file = "big.wav".toList ∨ file = "small.wav".toList ∨ file = "edge.wav".toList
      ∨ file = "takes.wav".toList then ".wav".toList
  else if file = "LOUD.WAV".toList then ".WAV".toList
  else ".txt".toList

/-- The joining of a directory and a name in the example directory. -/
def examplePathJoin (dir file : Str) : Str :=
  dir ++ '/' :: file

/-! ## Lemmas on the segment loop -/

theorem segmentDurationInSamples_main : segmentDurationInSamples maxDuration = 1008000000 := by
  unfold segmentDurationInSamples maxDuration sampleRate
  norm_num

theorem segmentLoop_length (md : ℕ) (d : ℚ) (N : ℤ) :
    ∀ (fuel i : ℕ) (tc : Option ℤ), N ≤ (i : ℤ) + fuel →
      (segmentLoop md d N fuel i tc).length = (N - i).toNat := by
  intro fuel
  induction fuel with
  | zero =>
    intro i tc h
    simp only [segmentLoop, List.length_nil]
    omega
  | succ f ih =>
    intro i tc h
    unfold segmentLoop
    split
    · rename_i hlt
      simp only [List.length_cons]
      rw [ih (i + 1) _ (by push_cast; omega)]
      push_cast
      omega
    · simp only [List.length_nil]
      omega

theorem segmentLoop_getElem (md : ℕ) (d : ℚ) (N : ℤ) :
    ∀ (fuel i : ℕ) (tc : Option ℤ) (j : ℕ) (s : Segment),
      (segmentLoop md d N fuel i tc)[j]? = some s →
        s.segmentNum = i + j + 1 ∧ s.startTime = ((i + j : ℕ) : ℚ) * (md : ℚ) ∧
        s.endTime = (if ((i + j : ℕ) : ℤ) = N - 1 then d
          else ((i + j : ℕ) : ℚ) * (md : ℚ) + (md : ℚ)) := by
  intro fuel
  induction fuel with
  | zero =>
    intro i tc j s h
    simp [segmentLoop] at h
  | succ f ih =>
    intro i tc j s h
    unfold segmentLoop at h
    split at h
    · cases j with
      | zero =>
        simp only [List.getElem?_cons_zero, Option.some.injEq] at h
        subst h
        simp
      | succ j =>
        simp only [List.getElem?_cons_succ] at h
        have := ih (i + 1) _ j s h
        have e : i + 1 + j = i + (j + 1) := by omega
        rw [e] at this
        exact this
    · simp at h

theorem segmentDurationInSamples_eq (md : ℕ) :
    segmentDurationInSamples md = ((md * sampleRate : ℕ) : ℤ) := by
  unfold segmentDurationInSamples
  have h : (md : ℚ) * (sampleRate : ℚ) = ((md * sampleRate : ℕ) : ℚ) := by push_cast; rfl
  rw [h, round_natCast]

/-- The running timecode stays an integer that is not negative. -/
theorem advanceTimecode_nonneg (md i : ℕ) (t : ℤ) (ht : 0 ≤ t) :
    ∃ t1, advanceTimecode md i (some t) = some t1 ∧ 0 ≤ t1 ∧ (0 < i → t1 < samplesPerDay) ∧
      (i = 0 → t1 = t) := by
  have hinc : 0 ≤ segmentDurationInSamples md := by
    rw [segmentDurationInSamples_eq]
    exact Int.natCast_nonneg _
  have hp : (0 : ℤ) < samplesPerDay := by unfold samplesPerDay; omega
  unfold advanceTimecode
  by_cases hi : i > 0
  · simp only [hi, if_true, Option.map_some']
    by_cases hge : t + segmentDurationInSamples md ≥ samplesPerDay
    · refine ⟨(t + segmentDurationInSamples md).tmod samplesPerDay, by simp only [hge, if_true],
        ?_, ?_, by omega⟩
      · rw [Int.tmod_eq_emod (by omega) (le_of_lt hp)]
        exact Int.emod_nonneg _ (ne_of_gt hp)
      · intro _
        rw [Int.tmod_eq_emod (by omega) (le_of_lt hp)]
        exact Int.emod_lt_of_pos _ hp
    · refine ⟨t + segmentDurationInSamples md, by simp only [hge, if_false], by omega,
        fun _ => by omega, by omega⟩
  · refine ⟨t, by simp only [hi, if_false], ht, fun h => absurd h hi, fun _ => rfl⟩

theorem segmentLoop_timeReference_range (d : ℚ) (N : ℤ) :
    ∀ (fuel i : ℕ) (t : ℤ) (j : ℕ) (s : Segment), 0 ≤ t →
      (segmentLoop maxDuration d N fuel i (some t))[j]? = some s →
        ∃ t1, s.timeReference = some t1 ∧ 0 ≤ t1 ∧ (0 < i + j → t1 < samplesPerDay) ∧
          (i + j = 0 → t1 = t) := by
  intro fuel
  induction fuel with
  | zero =>
    intro i t j s _ h
    simp [segmentLoop] at h
  | succ f ih =>
    intro i t j s ht h
    unfold segmentLoop at h
    split at h
    · obtain ⟨t1, h1, h2, h3, h4⟩ := advanceTimecode_nonneg maxDuration i t ht
      cases j with
      | zero =>
        simp only [List.getElem?_cons_zero, Option.some.injEq] at h
        subst h
        exact ⟨t1, h1, h2, fun h => h3 (by omega), fun h => h4 (by omega)⟩
      | succ j =>
        simp only [List.getElem?_cons_succ] at h
        rw [h1] at h
        obtain ⟨t2, g1, g2, g3, _⟩ := ih (i + 1) t1 j s h2 h
        exact ⟨t2, g1, g2, fun _ => g3 (by omega), fun h => by omega⟩
    · simp at h

/-- The closed form of the running timecode for an initial value inside the day. -/
theorem advanceTimecode_closed (init : ℤ) (i : ℕ) :
    advanceTimecode maxDuration (i + 1)
        (some ((init + (i : ℤ) * 1008000000) % samplesPerDay)) =
      some ((init + ((i + 1 : ℕ) : ℤ) * 1008000000) % samplesPerDay) := by
  unfold advanceTimecode
  simp only [Nat.succ_pos, gt_iff_lt, if_true, Option.map_some', segmentDurationInSamples_main,
    Option.some.injEq]
  have hp : (0 : ℤ) < samplesPerDay := by unfold samplesPerDay; omega
  have hm0 := Int.emod_nonneg (init + (i : ℤ) * 1008000000) (ne_of_gt hp)
  have hm1 := Int.emod_lt_of_pos (init + (i : ℤ) * 1008000000) hp
  have key : (init + ((i + 1 : ℕ) : ℤ) * 1008000000) % samplesPerDay =
      ((init + (i : ℤ) * 1008000000) % samplesPerDay + 1008000000) % samplesPerDay := by
    rw [Int.emod_add_cancel_right 1008000000 |>.mpr (Int.emod_emod_of_dvd _ (dvd_refl _))]
    congr 1
    push_cast
    ring
  rw [key]
  split
  · rw [Int.tmod_eq_emod (by omega) (le_of_lt hp)]
  · rename_i hlt
    have e : ((init + (i : ℤ) * 1008000000) % samplesPerDay + 1008000000) % samplesPerDay =
        (init + (i : ℤ) * 1008000000) % samplesPerDay + 1008000000 :=
      Int.emod_eq_of_lt (by omega) (by omega)
    rw [e]

theorem segmentLoop_timeReference_closed (d : ℚ) (N : ℤ) (init : ℤ) :
    ∀ (fuel i : ℕ) (tc : Option ℤ) (j : ℕ) (s : Segment),
      advanceTimecode maxDuration i tc = some ((init + (i : ℤ) * 1008000000) % samplesPerDay) →
      (segmentLoop maxDuration d N fuel i tc)[j]? = some s →
        s.timeReference = some ((init + ((i + j : ℕ) : ℤ) * 1008000000) % samplesPerDay) := by
  intro fuel
  induction fuel with
  | zero =>
    intro i tc j s _ h
    simp [segmentLoop] at h
  | succ f ih =>
    intro i tc j s hinv h
    unfold segmentLoop at h
    split at h
    · cases j with
      | zero =>
        simp only [List.getElem?_cons_zero, Option.some.injEq] at h
        subst h
        simpa using hinv
      | succ j =>
        simp only [List.getElem?_cons_succ] at h
        rw [hinv] at h
        have := ih (i + 1) _ j s (advanceTimecode_closed init i) h
        have e : i + 1 + j = i + (j + 1) := by omega
        rw [e] at this
        exact this
    · simp at h


/-! ## The segment planner and the timecode propagator -/

theorem splitSegments_getElem (md : ℕ) (d : ℚ) (tc : Option ℤ) (i : ℕ)
    (hi : (i : ℤ) < numOfSegments md d) :
    ∃ s, (splitSegments md d tc)[i]? = some s := by
  have hlen := segmentLoop_length md d (numOfSegments md d) (numOfSegments md d).toNat 0 tc
    (by omega)
  have : i < (splitSegments md d tc).length := by
    unfold splitSegments
    rw [hlen]
    omega
  exact ⟨(splitSegments md d tc)[i], List.getElem?_eq_getElem this⟩

/-- C1. For a positive duration and a positive maximal segment duration the
planner cuts `ceil(duration / maxDuration)` segments, segment `i` (numbered
`i + 1`) starts at `i * maxDuration` and ends at the duration when it is the last
one and at `i * maxDuration + maxDuration` otherwise; the first segment starts at
0, each segment ends where the next one starts, the last one ends at the exact
duration, and every segment is non-empty and at most `maxDuration` long. -/
theorem planner_partitions_duration (md : ℕ) (d : ℚ) (tc : Option ℤ) (hmd : 0 < md)
    (hd : 0 < d) :
    ((splitSegments md d tc).length : ℤ) = ⌈d / (md : ℚ)⌉ ∧
    1 ≤ (splitSegments md d tc).length ∧
    (∀ i, i < (splitSegments md d tc).length →
      ∃ s, (splitSegments md d tc)[i]? = some s ∧ s.segmentNum = i + 1 ∧
        s.startTime = (i : ℚ) * (md : ℚ) ∧
        s.endTime = (if i = (splitSegments md d tc).length - 1 then d
          else (i : ℚ) * (md : ℚ) + (md : ℚ)) ∧
        s.startTime < s.endTime ∧ s.endTime ≤ s.startTime + (md : ℚ)) ∧
    (∃ s, (splitSegments md d tc)[0]? = some s ∧ s.startTime = 0) ∧
    (∀ i s s', i + 1 < (splitSegments md d tc).length →
      (splitSegments md d tc)[i]? = some s → (splitSegments md d tc)[i + 1]? = some s' →
        s.endTime = s'.startTime) ∧
    (∃ s, (splitSegments md d tc)[(splitSegments md d tc).length - 1]? = some s ∧
      s.endTime = d) := by
  have hmdq : (0 : ℚ) < (md : ℚ) := by exact_mod_cast hmd
  have hNpos : 0 < numOfSegments md d := by
    unfold numOfSegments
    exact Int.ceil_pos.mpr (div_pos hd hmdq)
  have hlen : (splitSegments md d tc).length = (numOfSegments md d).toNat := by
    have := segmentLoop_length md d (numOfSegments md d) (numOfSegments md d).toNat 0 tc
      (by omega)
    unfold splitSegments
    rw [this]
    simp
  have hlenZ : ((splitSegments md d tc).length : ℤ) = numOfSegments md d := by
    rw [hlen]
    exact Int.toNat_of_nonneg (le_of_lt hNpos)
  have hlast : ∀ i : ℕ, ((i : ℤ) = numOfSegments md d - 1) ↔
      i = (splitSegments md d tc).length - 1 := by
    intro i
    omega
  -- the bounds the ceiling gives on the duration
  have hup : d ≤ ((numOfSegments md d : ℤ) : ℚ) * (md : ℚ) := by
    have := Int.le_ceil (d / (md : ℚ))
    unfold numOfSegments
    calc d = d / (md : ℚ) * (md : ℚ) := by field_simp
      _ ≤ _ := by gcongr
  have hlow : ((numOfSegments md d : ℤ) : ℚ) * (md : ℚ) < d + (md : ℚ) := by
    have := Int.ceil_lt_add_one (d / (md : ℚ))
    unfold numOfSegments
    calc ((⌈d / (md : ℚ)⌉ : ℤ) : ℚ) * (md : ℚ) < (d / (md : ℚ) + 1) * (md : ℚ) := by gcongr
      _ = d + (md : ℚ) := by field_simp
  have hseg : ∀ i, i < (splitSegments md d tc).length →
      ∃ s, (splitSegments md d tc)[i]? = some s ∧ s.segmentNum = i + 1 ∧
        s.startTime = (i : ℚ) * (md : ℚ) ∧
        s.endTime = (if i = (splitSegments md d tc).length - 1 then d
          else (i : ℚ) * (md : ℚ) + (md : ℚ)) ∧
        s.startTime < s.endTime ∧ s.endTime ≤ s.startTime + (md : ℚ) := by
    intro i hi
    obtain ⟨s, hs⟩ := splitSegments_getElem md d tc i (by omega)
    have h := segmentLoop_getElem md d (numOfSegments md d) _ 0 tc i s hs
    simp only [Nat.zero_add] at h
    obtain ⟨h1, h2, h3⟩ := h
    have h3' : s.endTime = (if i = (splitSegments md d tc).length - 1 then d
        else (i : ℚ) * (md : ℚ) + (md : ℚ)) := by
      rw [h3]
      by_cases hc : i = (splitSegments md d tc).length - 1
      · rw [if_pos ((hlast i).mpr hc), if_pos hc]
      · rw [if_neg (fun h => hc ((hlast i).mp h)), if_neg hc]
    refine ⟨s, hs, h1, h2, h3', ?_, ?_⟩
    · rw [h2, h3']
      split
      · rename_i hc
        have hi1 : ((i : ℤ) : ℚ) = ((numOfSegments md d : ℤ) : ℚ) - 1 := by
          have := (hlast i).mpr hc
          rw [this]
          push_cast
          ring
        have hi2 : (i : ℚ) = ((numOfSegments md d : ℤ) : ℚ) - 1 := by
          rw [← hi1]
          simp
        rw [hi2]
        linarith
      · linarith
    · rw [h2, h3']
      split
      · rename_i hc
        have hi1 : ((i : ℤ) : ℚ) = ((numOfSegments md d : ℤ) : ℚ) - 1 := by
          have := (hlast i).mpr hc
          rw [this]
          push_cast
          ring
        have hi2 : (i : ℚ) = ((numOfSegments md d : ℤ) : ℚ) - 1 := by
          rw [← hi1]
          simp
        rw [hi2]
        linarith
      · exact le_refl _
  have hnum : numOfSegments md d = ⌈d / (md : ℚ)⌉ := rfl
  refine ⟨by rw [hlenZ, hnum], by omega, hseg, ?_, ?_, ?_⟩
  · obtain ⟨s, hs, _, h2, _⟩ := hseg 0 (by omega)
    exact ⟨s, hs, by simpa using h2⟩
  · intro i s s' hi hs hs'
    obtain ⟨t, ht, _, _, h3, _⟩ := hseg i (by omega)
    obtain ⟨t', ht', _, h2', _⟩ := hseg (i + 1) hi
    rw [hs] at ht
    rw [hs'] at ht'
    cases ht
    cases ht'
    rw [h3, h2', if_neg (by omega)]
    push_cast
    ring
  · obtain ⟨s, hs, _, _, h3, _⟩ := hseg ((splitSegments md d tc).length - 1) (by omega)
    exact ⟨s, hs, by simpa using h3⟩

/-- The planner at a 45000-second file: three segments with the boundaries
`[0, 21000]`, `[21000, 42000]`, `[42000, 45000]`. -/
theorem planner_partitions_duration_witness :
    ((splitSegments 21000 45000 (some 0)).length : ℤ) = ⌈(45000 : ℚ) / ((21000 : ℕ) : ℚ)⌉ ∧
    1 ≤ (splitSegments 21000 45000 (some 0)).length ∧
    (∀ i, i < (splitSegments 21000 45000 (some 0)).length →
      ∃ s, (splitSegments 21000 45000 (some 0))[i]? = some s ∧ s.segmentNum = i + 1 ∧
        s.startTime = (i : ℚ) * ((21000 : ℕ) : ℚ) ∧
        s.endTime = (if i = (splitSegments 21000 45000 (some 0)).length - 1 then 45000
          else (i : ℚ) * ((21000 : ℕ) : ℚ) + ((21000 : ℕ) : ℚ)) ∧
        s.startTime < s.endTime ∧ s.endTime ≤ s.startTime + ((21000 : ℕ) : ℚ)) ∧
    (∃ s, (splitSegments 21000 45000 (some 0))[0]? = some s ∧ s.startTime = 0) ∧
    (∀ i s s', i + 1 < (splitSegments 21000 45000 (some 0)).length →
      (splitSegments 21000 45000 (some 0))[i]? = some s →
      (splitSegments 21000 45000 (some 0))[i + 1]? = some s' →
        s.endTime = s'.startTime) ∧
    (∃ s, (splitSegments 21000 45000 (some 0))[(splitSegments 21000 45000 (some 0)).length - 1]?
        = some s ∧ s.endTime = 45000) :=
  planner_partitions_duration 21000 45000 (some 0) (by decide) (by norm_num)

theorem numOfSegments_zero (md : ℕ) : numOfSegments md 0 = 0 := by
  unfold numOfSegments
  simp

/-- C2, as the code has it: a file of duration 0 gets no segment at all, since
`Math.ceil(0 / 21000)` is 0 and the loop body never runs. -/
theorem planner_zero_duration_no_segment (tc : Option ℤ) : mainSegments 0 tc = [] := by
  unfold mainSegments splitSegments
  rw [numOfSegments_zero]
  rfl

/-- C2 fails as stated: at duration 0 the planner does not yield exactly one
segment. -/
theorem planner_zero_duration_not_one_segment :
    ¬ ∃ s : Segment, mainSegments 0 (some 0) = [s] ∧ s.startTime = 0 ∧ s.endTime = 0 := by
  rintro ⟨s, h, _⟩
  have h0 : mainSegments 0 (some 0) = [] := by
    unfold mainSegments splitSegments
    rw [numOfSegments_zero]
    rfl
  rw [h0] at h
  cases h

theorem numOfSegments_45000 : numOfSegments maxDuration 45000 = 3 := by
  unfold numOfSegments maxDuration
  rw [Int.ceil_eq_iff]
  norm_num

theorem mainSegments_45000 :
    mainSegments 45000 (some 0) =
      [{ segmentNum := 1, startTime := 0, endTime := 21000, timeReference := some 0 },
       { segmentNum := 2, startTime := 21000, endTime := 42000,
         timeReference := some 1008000000 },
       { segmentNum := 3, startTime := 42000, endTime := 45000,
         timeReference := some 2016000000 }] := by
  unfold mainSegments splitSegments
  rw [numOfSegments_45000]
  simp only [Int.toNat_ofNat, segmentLoop, advanceTimecode, segmentDurationInSamples_main,
    samplesPerDay]
  norm_num [maxDuration]

/-- C3. For an initial timecode inside the day, every duration (hence every
number of segments) and every segment index `i`, the `time_reference` stamped on
segment `i` is `(initialTimecode + i * 1008000000) mod 4147200000`, whatever the
duration of the file and of its last segment; `1008000000` is
`round(21000 * 48000)`, segment 0 carries the initial timecode unchanged, and a
45000-second file starting at 0 gets the timecodes 0, 1008000000, 2016000000. -/
theorem timecode_closed_form (init : ℤ) (d : ℚ) (i : ℕ) (h0 : 0 ≤ init)
    (h1 : init < 4147200000) (hi : i < (mainSegments d (some init)).length) :
    (∃ s, (mainSegments d (some init))[i]? = some s ∧
      s.timeReference = some ((init + (i : ℤ) * 1008000000) % 4147200000)) ∧
    (∃ s, (mainSegments d (some init))[0]? = some s ∧ s.timeReference = some init) ∧
    segmentDurationInSamples maxDuration = 1008000000 ∧
    round (((21000 : ℕ) : ℚ) * ((48000 : ℕ) : ℚ)) = (1008000000 : ℤ) ∧
    (mainSegments 45000 (some 0)).map (fun s => s.timeReference) =
      [some 0, some 1008000000, some 2016000000] := by
  have hinv : advanceTimecode maxDuration 0 (some init) =
      some ((init + ((0 : ℕ) : ℤ) * 1008000000) % samplesPerDay) := by
    unfold advanceTimecode samplesPerDay
    simp only [gt_iff_lt, lt_self_iff_false, if_false, Nat.cast_zero, zero_mul, add_zero,
      Option.some.injEq]
    exact (Int.emod_eq_of_lt h0 h1).symm
  have hclosed : ∀ (j : ℕ) (s : Segment), (mainSegments d (some init))[j]? = some s →
      s.timeReference = some ((init + (j : ℤ) * 1008000000) % 4147200000) := by
    intro j s hs
    have := segmentLoop_timeReference_closed d (numOfSegments maxDuration d) init _ 0
      (some init) j s hinv hs
    simpa [samplesPerDay] using this
  refine ⟨?_, ?_, segmentDurationInSamples_main, ?_, ?_⟩
  · exact ⟨(mainSegments d (some init))[i], List.getElem?_eq_getElem hi,
      hclosed i _ (List.getElem?_eq_getElem hi)⟩
  · have h0' : 0 < (mainSegments d (some init)).length := by omega
    refine ⟨(mainSegments d (some init))[0], List.getElem?_eq_getElem h0', ?_⟩
    have := hclosed 0 _ (List.getElem?_eq_getElem h0')
    rw [this]
    simp only [Nat.cast_zero, zero_mul, add_zero, Option.some.injEq]
    exact Int.emod_eq_of_lt h0 h1
  · have := segmentDurationInSamples_main
    unfold segmentDurationInSamples maxDuration sampleRate at this
    exact this
  · rw [mainSegments_45000]
    rfl

/-- The third segment of a 45000-second file that starts at timecode 0. -/
theorem timecode_closed_form_witness :
    (∃ s, (mainSegments 45000 (some 0))[2]? = some s ∧
      s.timeReference = some ((0 + ((2 : ℕ) : ℤ) * 1008000000) % 4147200000)) ∧
    (∃ s, (mainSegments 45000 (some 0))[0]? = some s ∧ s.timeReference = some 0) ∧
    segmentDurationInSamples maxDuration = 1008000000 ∧
    round (((21000 : ℕ) : ℚ) * ((48000 : ℕ) : ℚ)) = (1008000000 : ℤ) ∧
    (mainSegments 45000 (some 0)).map (fun s => s.timeReference) =
      [some 0, some 1008000000, some 2016000000] :=
  timecode_closed_form 0 45000 2 (by decide) (by decide)
    (by rw [mainSegments_45000]; decide)

/-- C4, as the code has it: for an initial `time_reference` that is not negative,
every segment after the first is stamped with a timecode in `[0, samplesPerDay)`,
and the first segment is stamped with the initial value itself, which lies in
that range exactly when the initial value does. -/
theorem timecode_range_after_first (init : ℤ) (d : ℚ) (i : ℕ) (s : Segment) (h0 : 0 ≤ init)
    (hs : (mainSegments d (some init))[i]? = some s) :
    ∃ t, s.timeReference = some t ∧ 0 ≤ t ∧
      (1 ≤ i → t < 4147200000) ∧
      (i = 0 → t = init ∧ (t < 4147200000 ↔ init < 4147200000)) := by
  obtain ⟨t, h1, h2, h3, h4⟩ := segmentLoop_timeReference_range d
    (numOfSegments maxDuration d) _ 0 init i s h0 hs
  refine ⟨t, h1, h2, fun hi => ?_, fun hi => ?_⟩
  · have := h3 (by omega)
    simpa [samplesPerDay] using this
  · have := h4 (by omega)
    subst this
    exact ⟨rfl, Iff.rfl⟩

/-- The second segment of a 45000-second file whose initial timecode is past
the end of the day. -/
theorem timecode_range_after_first_witness :
    ∃ t, (Segment.mk 2 21000 42000 (some 1860800000)).timeReference = some t ∧ 0 ≤ t ∧
      (1 ≤ 1 → t < 4147200000) ∧
      (1 = 0 → t = 5000000000 ∧ (t < 4147200000 ↔ (5000000000 : ℤ) < 4147200000)) :=
  timecode_range_after_first 5000000000 45000 1 _ (by decide) (by
    unfold mainSegments splitSegments
    rw [numOfSegments_45000]
    simp only [Int.toNat_ofNat, segmentLoop, advanceTimecode, segmentDurationInSamples_main,
      samplesPerDay]
    norm_num [maxDuration, Segment.mk.injEq]
    decide)

/-- C4 fails as stated: a file whose `time_reference` is 5000000000 has its first
segment stamped with 5000000000, which is not below `samplesPerDay`. -/
theorem timecode_first_segment_out_of_range :
    ∃ s, (mainSegments 1 (some 5000000000))[0]? = some s ∧
      s.timeReference = some 5000000000 ∧ ¬ ((5000000000 : ℤ) < samplesPerDay) := by
  have hN : numOfSegments maxDuration 1 = 1 := by
    unfold numOfSegments maxDuration
    rw [Int.ceil_eq_iff]
    norm_num
  refine ⟨{ segmentNum := 1, startTime := 0, endTime := 1, timeReference := some 5000000000 },
    ?_, rfl, by unfold samplesPerDay; decide⟩
  unfold mainSegments splitSegments
  rw [hN]
  simp only [Int.toNat_ofNat, segmentLoop, advanceTimecode, maxDuration]
  norm_num

/-! ## Lemmas on own properties -/

theorem getOwn_defineProp (ps : Props) (k k' : Str) (v : Js) :
    getOwn (defineProp ps k v) k' = if k = k' then some v else getOwn ps k' := by
  induction ps with
  | nil =>
    simp only [defineProp, getOwn]
  | cons p ps ih =>
    obtain ⟨a, w⟩ := p
    unfold defineProp
    by_cases h : a = k
    · subst h
      simp only [if_true, getOwn]
      split <;> rfl
    · simp only [h, if_false, getOwn, ih]
      by_cases h2 : a = k'
      · subst h2
        simp only [if_true]
        rw [if_neg (fun e => h e.symm)]
      · simp only [h2, if_false]

theorem getOwn_assignProp_of_ne (ps : Props) (k k' : Str) (v : Js) (h : k ≠ k') :
    getOwn (assignProp ps k v) k' = getOwn ps k' := by
  unfold assignProp
  split
  · rfl
  · rw [getOwn_defineProp, if_neg h]

theorem getOwn_assignProp_self (ps : Props) (k : Str) (v : Js) (h : k ≠ protoKey) :
    getOwn (assignProp ps k v) k = some v := by
  unfold assignProp
  rw [if_neg (fun e => h e.1), getOwn_defineProp, if_pos rfl]

theorem getOwn_eq_none_of_not_mem (ps : Props) (k : Str) (h : k ∉ ps.map Prod.fst) :
    getOwn ps k = none := by
  induction ps with
  | nil => rfl
  | cons p ps ih =>
    obtain ⟨a, w⟩ := p
    simp only [List.map_cons, List.mem_cons, not_or] at h
    simp only [getOwn]
    rw [if_neg (fun e => h.1 e.symm)]
    exact ih h.2

theorem mem_keys_of_getOwn (ps : Props) (k : Str) (v : Js) (h : getOwn ps k = some v) :
    k ∈ ps.map Prod.fst := by
  by_contra hn
  rw [getOwn_eq_none_of_not_mem ps k hn] at h
  cases h

theorem keys_defineProp (ps : Props) (k : Str) (v : Js) :
    (defineProp ps k v).map Prod.fst =
      if k ∈ ps.map Prod.fst then ps.map Prod.fst else ps.map Prod.fst ++ [k] := by
  induction ps with
  | nil => simp [defineProp]
  | cons p ps ih =>
    obtain ⟨a, w⟩ := p
    unfold defineProp
    by_cases h : a = k
    · subst h
      simp only [if_true, List.map_cons, List.mem_cons, true_or]
    · simp only [h, if_false, List.map_cons, ih, List.mem_cons]
      have h' : ¬ k = a := fun e => h e.symm
      by_cases hm : k ∈ ps.map Prod.fst
      · simp only [hm, or_true, if_true]
      · simp only [hm, h', or_self, if_false, List.cons_append]

theorem keys_nodup_defineProp (ps : Props) (k : Str) (v : Js)
    (h : (ps.map Prod.fst).Nodup) : ((defineProp ps k v).map Prod.fst).Nodup := by
  rw [keys_defineProp]
  split
  · exact h
  · rename_i hk
    rw [List.nodup_append]
    refine ⟨h, List.nodup_singleton _, ?_⟩
    intro a ha hb
    simp only [List.mem_singleton] at hb
    subst hb
    exact hk ha

theorem keys_nodup_assignProp (ps : Props) (k : Str) (v : Js)
    (h : (ps.map Prod.fst).Nodup) : ((assignProp ps k v).map Prod.fst).Nodup := by
  unfold assignProp
  split
  · exact h
  · exact keys_nodup_defineProp ps k v h

/-- The lookup in a spread: the source wins, the target shows through. -/
theorem getOwn_spread (source : Props) :
    ∀ (target : Props) (k : Str), (source.map Prod.fst).Nodup →
      getOwn (spread target source) k =
        match getOwn source k with
        | some v => some v
        | none => getOwn target k := by
  induction source with
  | nil =>
    intro target k _
    rfl
  | cons p rest ih =>
    intro target k hnd
    obtain ⟨a, w⟩ := p
    simp only [List.map_cons, List.nodup_cons] at hnd
    have e : spread target ((a, w) :: rest) = spread (defineProp target a w) rest := rfl
    rw [e, ih _ k hnd.2, getOwn_defineProp]
    simp only [getOwn]
    by_cases h : a = k
    · subst h
      rw [getOwn_eq_none_of_not_mem rest a hnd.1]
      simp
    · simp only [h, if_false]

/-! ## Lemmas on the string operations -/

theorem splitOnChars_of_none (p : Char → Bool) (s : Str) (h : ∀ c ∈ s, p c = false) :
    splitOnChars p s = [s] := by
  induction s with
  | nil => rfl
  | cons c cs ih =>
    have hc : p c = false := h c (List.mem_cons_self _ _)
    have := ih (fun x hx => h x (List.mem_cons_of_mem _ hx))
    simp only [splitOnChars, hc, this, consHead]
    rfl

theorem splitOnChars_append_sep (p : Char → Bool) (l : Str) (c : Char) (rest : Str)
    (h : ∀ x ∈ l, p x = false) (hc : p c = true) :
    splitOnChars p (l ++ c :: rest) = l :: splitOnChars p rest := by
  induction l with
  | nil => simp only [List.nil_append, splitOnChars, hc, if_true]
  | cons a as ih =>
    have ha : p a = false := h a (List.mem_cons_self _ _)
    have := ih (fun x hx => h x (List.mem_cons_of_mem _ hx))
    show splitOnChars p (a :: (as ++ c :: rest)) = _
    rw [splitOnChars, if_neg (by simp [ha]), this]
    rfl

theorem splitOnChars_cons_of_mem (p : Char → Bool) (s : Str) (h : ∃ c ∈ s, p c = true) :
    ∃ a b rest, splitOnChars p s = a :: b :: rest := by
  induction s with
  | nil =>
    obtain ⟨c, hc, _⟩ := h
    cases hc
  | cons c cs ih =>
    by_cases hc : p c = true
    · simp only [splitOnChars, hc, if_true]
      cases hs : splitOnChars p cs with
      | nil =>
        cases cs with
        | nil => simp [splitOnChars] at hs
        | cons d ds =>
          unfold splitOnChars at hs
          split at hs
          · cases hs
          · revert hs
            cases splitOnChars p ds <;> simp [consHead]
      | cons b rest => exact ⟨[], b, rest, rfl⟩
    · have hc' : p c = false := by simpa using hc
      obtain ⟨x, hx, hpx⟩ := h
      have hx' : x ∈ cs := by
        rcases List.mem_cons.mp hx with e | e
        · subst e
          rw [hpx] at hc'
          cases hc'
        · exact e
      obtain ⟨a, b, rest, e⟩ := ih ⟨x, hx', hpx⟩
      exact ⟨c :: a, b, rest, by simp only [splitOnChars, hc', e, consHead]; rfl⟩

theorem isEq_false_of_not_mem (s : Str) (h : '=' ∉ s) :
    ∀ c ∈ s, (fun c : Char => decide (c = '=')) c = false := by
  intro c hc
  simp only [decide_eq_false_iff_not]
  intro e
  subst e
  exact h hc

theorem keyVal_entryLine (k v : Str) (hk : '=' ∉ k) (hv : '=' ∉ v) :
    keyVal (entryLine (k, v)) = (k, some v) := by
  unfold keyVal entryLine
  rw [splitOnChars_append_sep _ k '=' v (isEq_false_of_not_mem k hk) (by simp),
    splitOnChars_of_none _ v (isEq_false_of_not_mem v hv)]

theorem keyVal_of_not_mem (l : Str) (h : '=' ∉ l) : keyVal l = (l, none) := by
  unfold keyVal
  rw [splitOnChars_of_none _ l (isEq_false_of_not_mem l h)]

theorem keyVal_snd_of_mem (item : Str) (h : '=' ∈ item) : ∃ v, (keyVal item).2 = some v := by
  obtain ⟨a, b, rest, e⟩ := splitOnChars_cons_of_mem (fun c : Char => decide (c = '=')) item
    ⟨'=', h, by simp⟩
  unfold keyVal
  rw [e]
  exact ⟨b, rfl⟩

theorem splitCRLF_of_not_hasCRLF (l : Str) (h : hasCRLF l = false) : splitCRLF l = [l] := by
  induction l with
  | nil => rfl
  | cons c cs ih =>
    cases cs with
    | nil => rfl
    | cons d ds =>
      simp only [hasCRLF, Bool.or_eq_false_iff, Bool.and_eq_false_imp, decide_eq_true_eq,
        decide_eq_false_iff_not] at h
      have hcd : ¬ (c = '\r' ∧ d = '\n') := fun e => h.1 e.1 e.2
      simp only [splitCRLF, hcd, if_false, ih h.2, consHead]

theorem splitCRLF_append_CRLF (l rest : Str) (h : hasCRLF l = false) :
    splitCRLF (l ++ '\r' :: '\n' :: rest) = l :: splitCRLF rest := by
  induction l with
  | nil => simp [splitCRLF]
  | cons c cs ih =>
    cases cs with
    | nil =>
      have hcd : ¬ (c = '\r' ∧ '\r' = '\n') := fun e => by
        have := e.2
        revert this
        decide
      simp only [List.cons_append, List.nil_append, splitCRLF, hcd, if_false, and_self, if_true,
        consHead]
    | cons d ds =>
      simp only [hasCRLF, Bool.or_eq_false_iff, Bool.and_eq_false_imp, decide_eq_true_eq,
        decide_eq_false_iff_not] at h
      have hcd : ¬ (c = '\r' ∧ d = '\n') := fun e => h.1 e.1 e.2
      have := ih h.2
      show splitCRLF (c :: d :: (ds ++ '\r' :: '\n' :: rest)) = _
      rw [splitCRLF, if_neg hcd]
      rw [show d :: (ds ++ '\r' :: '\n' :: rest) = d :: ds ++ '\r' :: '\n' :: rest from rfl, this]
      rfl

theorem splitCRLF_joinCRLF (lines : List Str) (hne : lines ≠ [])
    (h : ∀ l ∈ lines, hasCRLF l = false) : splitCRLF (joinCRLF lines) = lines := by
  induction lines with
  | nil => exact absurd rfl hne
  | cons l ls ih =>
    cases ls with
    | nil =>
      simp only [joinCRLF]
      exact splitCRLF_of_not_hasCRLF l (h l (List.mem_cons_self _ _))
    | cons l' ls' =>
      simp only [joinCRLF]
      rw [splitCRLF_append_CRLF l _ (h l (List.mem_cons_self _ _))]
      have := ih (by simp) (fun x hx => h x (List.mem_cons_of_mem _ hx))
      rw [this]

theorem startsWith_escapedCRLF (s : Str) (h : startsWith escapedCRLF s = true) :
    '\\' ∈ s := by
  cases s with
  | nil => simp [startsWith, escapedCRLF] at h
  | cons c cs =>
    simp only [escapedCRLF, startsWith, Bool.and_eq_true, decide_eq_true_eq] at h
    rw [← h.1]
    exact List.mem_cons_self _ _

theorem removeFirst_escapedCRLF_of_not_mem (s : Str) (h : '\\' ∉ s) :
    removeFirst escapedCRLF s = s := by
  induction s with
  | nil => rfl
  | cons c cs ih =>
    unfold removeFirst
    split
    · rename_i hs
      exact absurd (startsWith_escapedCRLF _ hs) h
    · rw [ih (fun hm => h (List.mem_cons_of_mem _ hm))]

/-! ## Lemmas on the two `forEach` loops of `parseFfprobeOutput` -/

theorem getOwn_commentStep_of_ne (acc : Props) (line k : Str) (h : (keyVal line).1 ≠ k) :
    getOwn (commentStep acc line) k = getOwn acc k := by
  unfold commentStep
  split
  · exact getOwn_assignProp_of_ne _ _ _ _ h
  · rfl

theorem getOwn_foldl_commentStep_of_ne (lines : List Str) (k : Str) :
    ∀ acc : Props, (∀ l ∈ lines, (keyVal l).1 ≠ k) →
      getOwn (lines.foldl commentStep acc) k = getOwn acc k := by
  induction lines with
  | nil =>
    intro acc _
    rfl
  | cons l ls ih =>
    intro acc h
    rw [List.foldl_cons, ih _ (fun x hx => h x (List.mem_cons_of_mem _ hx)),
      getOwn_commentStep_of_ne _ _ _ (h l (List.mem_cons_self _ _))]

theorem keys_nodup_foldl_commentStep (lines : List Str) :
    ∀ acc : Props, (acc.map Prod.fst).Nodup →
      ((lines.foldl commentStep acc).map Prod.fst).Nodup := by
  induction lines with
  | nil =>
    intro acc h
    exact h
  | cons l ls ih =>
    intro acc h
    rw [List.foldl_cons]
    apply ih
    unfold commentStep
    split
    · exact keys_nodup_assignProp _ _ _ h
    · exact h

theorem keys_nodup_parseComments (lines : List Str) :
    ((parseComments lines).map Prod.fst).Nodup :=
  keys_nodup_foldl_commentStep lines [] List.nodup_nil

/-- The value a comment key ends with is that of its last line. -/
theorem getOwn_parseComments_at (pre post : List Str) (l k : Str) (hk : (keyVal l).1 = k)
    (hne : k ≠ []) (hproto : k ≠ protoKey) (hpost : ∀ x ∈ post, (keyVal x).1 ≠ k) :
    getOwn (parseComments (pre ++ l :: post)) k = some (valJs (keyVal l).2) := by
  unfold parseComments
  rw [List.foldl_append, List.foldl_cons, getOwn_foldl_commentStep_of_ne post k _ hpost]
  unfold commentStep
  rw [hk, if_pos hne]
  exact getOwn_assignProp_self _ _ _ hproto

theorem getOwn_parseComments_of_ne (lines : List Str) (k : Str)
    (h : ∀ l ∈ lines, (keyVal l).1 ≠ k) : getOwn (parseComments lines) k = none := by
  unfold parseComments
  rw [getOwn_foldl_commentStep_of_ne lines k [] h]
  rfl

theorem parseCodingHistory_ok (items : List Str) :
    ∀ acc : Props, (∀ item ∈ items, '=' ∈ item) →
      ∃ o, parseCodingHistory acc items = .ok o := by
  induction items with
  | nil =>
    intro acc _
    exact ⟨acc, rfl⟩
  | cons item rest ih =>
    intro acc h
    obtain ⟨v, hv⟩ := keyVal_snd_of_mem item (h item (List.mem_cons_self _ _))
    unfold parseCodingHistory codingHistoryStep
    rw [hv]
    exact ih _ (fun x hx => h x (List.mem_cons_of_mem _ hx))

/-- On entries `KEY=VALUE` free of `=` and of backslashes the loop assigns each
value to its key. -/
theorem parseCodingHistory_entries (entries : List (Str × Str)) :
    ∀ acc : Props, (∀ e ∈ entries, '=' ∉ e.1 ∧ '=' ∉ e.2 ∧ '\\' ∉ e.2) →
      parseCodingHistory acc (entries.map entryLine) =
        .ok (entries.foldl (fun o e => assignProp o e.1 (.str e.2)) acc) := by
  induction entries with
  | nil =>
    intro acc _
    rfl
  | cons e rest ih =>
    intro acc h
    obtain ⟨h1, h2, h3⟩ := h e (List.mem_cons_self _ _)
    obtain ⟨k, v⟩ := e
    simp only [List.map_cons, List.foldl_cons]
    unfold parseCodingHistory codingHistoryStep
    rw [keyVal_entryLine k v h1 h2]
    simp only [removeFirst_escapedCRLF_of_not_mem v h3]
    exact ih _ (fun x hx => h x (List.mem_cons_of_mem _ hx))

theorem getOwn_foldl_assign_of_ne (entries : List (Str × Str)) (k : Str) :
    ∀ acc : Props, (∀ e ∈ entries, e.1 ≠ k) →
      getOwn (entries.foldl (fun o e => assignProp o e.1 (.str e.2)) acc) k = getOwn acc k := by
  induction entries with
  | nil =>
    intro acc _
    rfl
  | cons e rest ih =>
    intro acc h
    rw [List.foldl_cons, ih _ (fun x hx => h x (List.mem_cons_of_mem _ hx)),
      getOwn_assignProp_of_ne _ _ _ _ (h e (List.mem_cons_self _ _))]

theorem getOwn_foldl_assign_at (pre post : List (Str × Str)) (e : Str × Str)
    (hproto : e.1 ≠ protoKey) (hpost : ∀ x ∈ post, x.1 ≠ e.1) (acc : Props) :
    getOwn ((pre ++ e :: post).foldl (fun o e => assignProp o e.1 (.str e.2)) acc) e.1 =
      some (.str e.2) := by
  rw [List.foldl_append, List.foldl_cons, getOwn_foldl_assign_of_ne post e.1 _ hpost]
  exact getOwn_assignProp_self _ _ _ hproto

theorem decodeCodingHistory_of_absent (tgs : Props)
    (h : ∀ v, getOwn tgs codingHistoryKey = some v → truthy v = false) :
    decodeCodingHistory tgs = .ok tgs := by
  unfold decodeCodingHistory
  cases hg : getOwn tgs codingHistoryKey with
  | none => rfl
  | some v =>
    have := h v hg
    simp only [this]
    rfl

theorem decodeCodingHistory_of_string (tgs : Props) (h : Str) (o : Props) (hne : h ≠ [])
    (hg : getOwn tgs codingHistoryKey = some (.str h))
    (hp : parseCodingHistory [] (splitOnChars isHistoryDelimiter h) = .ok o) :
    decodeCodingHistory tgs = .ok (assignProp tgs codingHistoryKey (.obj o)) := by
  have ht : truthy (.str h) = true := by
    cases h with
    | nil => exact absurd rfl hne
    | cons c cs => rfl
  unfold decodeCodingHistory
  simp only [hg, ht, if_true, hp]

theorem codingHistoryKey_ne_protoKey : codingHistoryKey ≠ protoKey := by decide

theorem commentKey_ne_protoKey : commentKey ≠ protoKey := by decide

theorem commentKey_ne_codingHistoryKey : commentKey ≠ codingHistoryKey := by decide

/-- A decodable `coding_history` is decoded without an exception, and the other
tags are left as they are. -/
theorem decodeCodingHistory_ok (tgs : Props) (h : HistoryDecodable tgs) :
    ∃ tgs1, decodeCodingHistory tgs = .ok tgs1 ∧
      ∀ k, k ≠ codingHistoryKey → getOwn tgs1 k = getOwn tgs k := by
  cases hg : getOwn tgs codingHistoryKey with
  | none =>
    exact ⟨tgs, decodeCodingHistory_of_absent tgs (fun v hv => by rw [hg] at hv; cases hv),
      fun _ _ => rfl⟩
  | some v =>
    by_cases ht : truthy v = true
    · obtain ⟨s, hs, hall⟩ := h v hg ht
      subst hs
      obtain ⟨o, ho⟩ := parseCodingHistory_ok (splitOnChars isHistoryDelimiter s) [] hall
      have hne : s ≠ [] := by
        intro e
        subst e
        cases ht
      refine ⟨_, decodeCodingHistory_of_string tgs s o hne hg ho, fun k hk => ?_⟩
      exact getOwn_assignProp_of_ne _ _ _ _ (fun e => hk e.symm)
    · refine ⟨tgs, decodeCodingHistory_of_absent tgs (fun w hw => ?_), fun _ _ => rfl⟩
      rw [hg] at hw
      cases hw
      simpa using ht

/-! ## The result of `parseFfprobeOutput` past its guards -/

theorem truthy_str_of_ne_nil (c : Str) (h : c ≠ []) : truthy (.str c) = true := by
  cases c with
  | nil => exact absurd rfl h
  | cons a as => rfl

theorem tagsKey_ne_protoKey : tagsKey ≠ protoKey := by decide

/-- Past the guards, with a decodable coding history and no comment line whose
key is `tags`, the function returns the input with `format` replaced by the
spread of the input `format` and the parsed comments, in which `tags` is the
decoded `tags` with an empty `comment`. -/
theorem parseFfprobeOutput_eq (top fmt tgs tgs1 : Props) (c : Str)
    (hfmt : getOwn top formatKey = some (.obj fmt))
    (htags : getOwn fmt tagsKey = some (.obj tgs))
    (hcomment : getOwn tgs commentKey = some (.str c)) (hc : c ≠ [])
    (hdec : decodeCodingHistory tgs = .ok tgs1)
    (hnotags : ∀ l ∈ splitCRLF c, (keyVal l).1 ≠ tagsKey) :
    parseFfprobeOutput (.obj top) =
      .ok (.obj (defineProp top formatKey
        (.obj (defineProp (spread (defineProp fmt tagsKey (.obj tgs1))
            (parseComments (splitCRLF c))) tagsKey
          (.obj (assignProp tgs1 commentKey (.str []))))))) := by
  have h1 : getOwn (spread (defineProp fmt tagsKey (.obj tgs1)) (parseComments (splitCRLF c)))
      tagsKey = some (.obj tgs1) := by
    rw [getOwn_spread _ _ _ (keys_nodup_parseComments _),
      getOwn_parseComments_of_ne _ _ hnotags, getOwn_defineProp, if_pos rfl]
  have hce : c.isEmpty = false := by
    cases c with
    | nil => exact absurd rfl hc
    | cons a as => rfl
  unfold parseFfprobeOutput
  simp only [getProp, hfmt, htags, hcomment, Option.getD_some, truthy, hce, Bool.not_true,
    Bool.not_false, Bool.false_eq_true, if_false, hdec, h1]

/-- The lookups in the result of `parseFfprobeOutput_eq`. -/
theorem parseFfprobeOutput_lookup (top fmt tgs tgs1 : Props) (c : Str)
    (hfmt : getOwn top formatKey = some (.obj fmt))
    (htags : getOwn fmt tagsKey = some (.obj tgs))
    (hcomment : getOwn tgs commentKey = some (.str c)) (hc : c ≠ [])
    (hdec : decodeCodingHistory tgs = .ok tgs1)
    (hnotags : ∀ l ∈ splitCRLF c, (keyVal l).1 ≠ tagsKey) :
    ∃ top' fmt' tgs', parseFfprobeOutput (.obj top) = .ok (.obj top') ∧
      getOwn top' formatKey = some (.obj fmt') ∧
      getOwn fmt' tagsKey = some (.obj tgs') ∧
      (∀ k, k ≠ formatKey → getOwn top' k = getOwn top k) ∧
      (∀ k, k ≠ tagsKey → getOwn fmt' k =
        match getOwn (parseComments (splitCRLF c)) k with
        | some v => some v
        | none => getOwn fmt k) ∧
      getOwn tgs' commentKey = some (.str []) ∧
      (∀ k, k ≠ commentKey → getOwn tgs' k = getOwn tgs1 k) := by
  refine ⟨defineProp top formatKey
      (.obj (defineProp (spread (defineProp fmt tagsKey (.obj tgs1))
          (parseComments (splitCRLF c))) tagsKey
        (.obj (assignProp tgs1 commentKey (.str []))))),
    defineProp (spread (defineProp fmt tagsKey (.obj tgs1)) (parseComments (splitCRLF c)))
      tagsKey (.obj (assignProp tgs1 commentKey (.str []))),
    assignProp tgs1 commentKey (.str []),
    parseFfprobeOutput_eq top fmt tgs tgs1 c hfmt htags hcomment hc hdec hnotags,
    ?_, ?_, ?_, ?_, ?_, ?_⟩
  · rw [getOwn_defineProp, if_pos rfl]
  · rw [getOwn_defineProp, if_pos rfl]
  · intro k hk
    rw [getOwn_defineProp, if_neg (fun e => hk e.symm)]
  · intro k hk
    rw [getOwn_defineProp, if_neg (fun e => hk e.symm),
      getOwn_spread _ _ _ (keys_nodup_parseComments _), getOwn_defineProp,
      if_neg (fun e => hk e.symm)]
  · exact getOwn_assignProp_self _ _ _ commentKey_ne_protoKey
  · intro k hk
    exact getOwn_assignProp_of_ne _ _ _ _ (fun e => hk e.symm)

/-- Without a truthy `comment` tag the input is returned as it is. -/
theorem parseFfprobeOutput_of_no_comment (top fmt tgs : Props)
    (hfmt : getOwn top formatKey = some (.obj fmt))
    (htags : getOwn fmt tagsKey = some (.obj tgs))
    (hcomment : ∀ v, getOwn tgs commentKey = some v → truthy v = false) :
    parseFfprobeOutput (.obj top) = .ok (.obj top) := by
  unfold parseFfprobeOutput
  cases hg : getOwn tgs commentKey with
  | none =>
    simp only [getProp, hfmt, htags, hg, Option.getD_some, Option.getD_none, truthy,
      Bool.not_true, Bool.not_false, Bool.false_eq_true, if_false, if_true]
  | some v =>
    have ho : truthy (.obj tgs) = true := rfl
    simp only [getProp, hfmt, htags, hg, Option.getD_some, ho, hcomment v hg,
      Bool.not_true, Bool.not_false, Bool.false_eq_true, if_false, if_true]

/-- Without a `tags` object the input is returned as it is. -/
theorem parseFfprobeOutput_of_no_tags (top fmt : Props)
    (hfmt : getOwn top formatKey = some (.obj fmt))
    (htags : getOwn fmt tagsKey = none) :
    parseFfprobeOutput (.obj top) = .ok (.obj top) := by
  unfold parseFfprobeOutput
  simp only [getProp, hfmt, htags, Option.getD_some, Option.getD_none, truthy,
    Bool.not_true, Bool.not_false, Bool.false_eq_true, if_false, if_true]

/-! ## The comment expansion of `parseFfprobeOutput` -/

theorem joinCRLF_ne_nil (l : Str) (ls : List Str) (h : l ≠ []) : joinCRLF (l :: ls) ≠ [] := by
  cases ls with
  | nil => exact h
  | cons l' ls' =>
    cases l with
    | nil => exact absurd rfl h
    | cons a as =>
      intro e
      simp [joinCRLF] at e

theorem entryLine_ne_nil (e : Str × Str) : entryLine e ≠ [] := by
  unfold entryLine
  intro h
  simp at h

theorem nodup_keys_split (entries : List (Str × Str)) (e : Str × Str)
    (hd : (entries.map Prod.fst).Nodup) (he : e ∈ entries) :
    ∃ pre post, entries = pre ++ e :: post ∧ ∀ x ∈ post, x.1 ≠ e.1 := by
  obtain ⟨pre, post, hsplit⟩ := List.append_of_mem he
  refine ⟨pre, post, hsplit, ?_⟩
  intro x hx hxe
  rw [hsplit, List.map_append, List.map_cons, List.nodup_append] at hd
  have := (List.nodup_cons.mp hd.2.1).1
  apply this
  rw [← hxe]
  exact List.mem_map_of_mem _ hx

/-- C5, as the code has it. For a probe output whose `format.tags.comment` is a
non-empty string of lines `KEY=VALUE` separated by CR LF (keys non-empty, pairwise
distinct, none equal to `tags` or to `__proto__`, no `=` in a key or a value, no
CR LF inside a line) and whose `coding_history`, when present and non-empty, is a
string with an `=` in each of its entries, `parseFfprobeOutput` returns an object
whose `format` has, for every line, the attribute `KEY` with the value `VALUE`,
keeps every other attribute of the input `format` (and of the input itself, and
every tag other than `comment` and `coding_history`), and whose
`format.tags.comment` is the empty string. -/
theorem comment_expansion (top fmt tgs : Props) (entries : List (Str × Str))
    (hfmt : getOwn top formatKey = some (.obj fmt))
    (htags : getOwn fmt tagsKey = some (.obj tgs))
    (hcomment : getOwn tgs commentKey = some (.str (joinCRLF (entries.map entryLine))))
    (hne : entries ≠ [])
    (hwf : ∀ e ∈ entries, e.1 ≠ [] ∧ e.1 ≠ tagsKey ∧ e.1 ≠ protoKey ∧ '=' ∉ e.1 ∧ '=' ∉ e.2 ∧
      hasCRLF (entryLine e) = false)
    (hdistinct : (entries.map Prod.fst).Nodup)
    (hhist : HistoryDecodable tgs) :
    ∃ top' fmt' tgs', parseFfprobeOutput (.obj top) = .ok (.obj top') ∧
      getOwn top' formatKey = some (.obj fmt') ∧
      getOwn fmt' tagsKey = some (.obj tgs') ∧
      (∀ e ∈ entries, getOwn fmt' e.1 = some (.str e.2)) ∧
      (∀ k, k ∉ entries.map Prod.fst → k ≠ tagsKey → getOwn fmt' k = getOwn fmt k) ∧
      getOwn tgs' commentKey = some (.str []) ∧
      (∀ k, k ≠ commentKey → k ≠ codingHistoryKey → getOwn tgs' k = getOwn tgs k) ∧
      (∀ k, k ≠ formatKey → getOwn top' k = getOwn top k) := by
  have hlines : splitCRLF (joinCRLF (entries.map entryLine)) = entries.map entryLine := by
    apply splitCRLF_joinCRLF
    · intro h
      exact hne (List.map_eq_nil_iff.mp h)
    · intro l hl
      obtain ⟨e, he, rfl⟩ := List.mem_map.mp hl
      exact (hwf e he).2.2.2.2.2
  have hkv : ∀ e ∈ entries, keyVal (entryLine e) = (e.1, some e.2) := by
    intro e he
    obtain ⟨_, _, _, h4, h5, _⟩ := hwf e he
    exact keyVal_entryLine e.1 e.2 h4 h5
  have hc : joinCRLF (entries.map entryLine) ≠ [] := by
    cases entries with
    | nil => exact absurd rfl hne
    | cons e es => exact joinCRLF_ne_nil _ _ (entryLine_ne_nil e)
  have hnotags : ∀ l ∈ splitCRLF (joinCRLF (entries.map entryLine)), (keyVal l).1 ≠ tagsKey := by
    rw [hlines]
    intro l hl
    obtain ⟨e, he, rfl⟩ := List.mem_map.mp hl
    rw [hkv e he]
    exact (hwf e he).2.1
  obtain ⟨tgs1, hdec, hkeep⟩ := decodeCodingHistory_ok tgs hhist
  obtain ⟨top', fmt', tgs', h1, h2, h3, h4, h5, h6, h7⟩ :=
    parseFfprobeOutput_lookup top fmt tgs tgs1 _ hfmt htags hcomment hc hdec hnotags
  rw [hlines] at h5
  refine ⟨top', fmt', tgs', h1, h2, h3, ?_, ?_, h6, ?_, h4⟩
  · intro e he
    obtain ⟨h01, h02, h03, _⟩ := hwf e he
    obtain ⟨pre, post, hsplit, hpost⟩ := nodup_keys_split entries e hdistinct he
    rw [h5 e.1 h02]
    have hl : entries.map entryLine = pre.map entryLine ++ entryLine e :: post.map entryLine := by
      rw [hsplit, List.map_append, List.map_cons]
    have hk : (keyVal (entryLine e)).1 = e.1 := by rw [hkv e he]
    rw [hl, getOwn_parseComments_at _ _ (entryLine e) e.1 hk h01 h03, hkv e he]
    · rfl
    · intro x hx
      obtain ⟨e', he', rfl⟩ := List.mem_map.mp hx
      have he'' : e' ∈ entries := by
        rw [hsplit]
        exact List.mem_append_right _ (List.mem_cons_of_mem _ he')
      rw [hkv e' he'']
      exact hpost e' he'
  · intro k hk hkt
    rw [h5 k hkt, getOwn_parseComments_of_ne]
    intro l hl
    obtain ⟨e, he, rfl⟩ := List.mem_map.mp hl
    rw [hkv e he]
    intro hek
    apply hk
    rw [← hek]
    exact List.mem_map_of_mem _ he
  · intro k hk1 hk2
    rw [h7 k hk1, hkeep k hk2]

/-- The comment `K1=V1`, CR LF, `K2=V2` gives `format.K1 = 'V1'`,
`format.K2 = 'V2'` and an empty `tags.comment`. -/
theorem comment_expansion_witness :
    ∃ top' fmt' tgs',
      parseFfprobeOutput (.obj [(formatKey, .obj [("filename".toList, .str "a.wav".toList),
        (tagsKey, .obj [(commentKey, .str "K1=V1\r\nK2=V2".toList)])])]) = .ok (.obj top') ∧
      getOwn top' formatKey = some (.obj fmt') ∧
      getOwn fmt' tagsKey = some (.obj tgs') ∧
      (∀ e ∈ [("K1".toList, "V1".toList), ("K2".toList, "V2".toList)],
        getOwn fmt' e.1 = some (.str e.2)) ∧
      (∀ k, k ∉ [("K1".toList, "V1".toList), ("K2".toList, "V2".toList)].map Prod.fst →
        k ≠ tagsKey → getOwn fmt' k =
          getOwn [("filename".toList, .str "a.wav".toList),
            (tagsKey, .obj [(commentKey, .str "K1=V1\r\nK2=V2".toList)])] k) ∧
      getOwn tgs' commentKey = some (.str []) ∧
      (∀ k, k ≠ commentKey → k ≠ codingHistoryKey →
        getOwn tgs' k = getOwn [(commentKey, .str "K1=V1\r\nK2=V2".toList)] k) ∧
      (∀ k, k ≠ formatKey → getOwn top' k =
        getOwn [(formatKey, .obj [("filename".toList, .str "a.wav".toList),
          (tagsKey, .obj [(commentKey, .str "K1=V1\r\nK2=V2".toList)])])] k) :=
  comment_expansion
    [(formatKey, .obj [("filename".toList, .str "a.wav".toList),
      (tagsKey, .obj [(commentKey, .str "K1=V1\r\nK2=V2".toList)])])]
    [("filename".toList, .str "a.wav".toList),
      (tagsKey, .obj [(commentKey, .str "K1=V1\r\nK2=V2".toList)])]
    [(commentKey, .str "K1=V1\r\nK2=V2".toList)]
    [("K1".toList, "V1".toList), ("K2".toList, "V2".toList)]
    rfl rfl rfl (by decide) (by decide) (by decide)
    (fun v h => by cases h)

/-- C5 fails as stated. The comment line `__proto__=x` satisfies the conditions of
the claim, yet the returned `format` has no attribute `__proto__`; and with the
comment `K1=V1` next to the coding history `A` the function throws instead of
returning an object. -/
theorem comment_expansion_fails :
    (∃ fmt', formatOf (parseFfprobeOutput
        (probeWithTags [(commentKey, .str "__proto__=x".toList)])) = some fmt' ∧
      getOwn fmt' "__proto__".toList = none) ∧
    parseFfprobeOutput (probeWithTags [(commentKey, .str "K1=V1".toList),
      (codingHistoryKey, .str "A".toList)]) = .error .typeError :=
  ⟨⟨_, rfl, rfl⟩, rfl⟩

/-! ## The coding history of `parseFfprobeOutput` -/

/-- C6 fails on the code at the example of the claim. The coding history
`A=1,B=2\r\n;C=3` with literal backslashes is split at the backslashes too, into
`A=1`, `B=2`, `r`, `n`, `C=3`; the entry `r` has no `=`, its `val` is `undefined`
and `val.replace` throws, so no mapping is returned. With a real CR LF in place of
the escaped one the function returns, but the value of `B` keeps its CR LF: the
removal never applies. And of an entry `A=1=2` the value kept is `1`, the text up
to the second `=`. -/
theorem codingHistory_escapedCRLF_throws :
    parseFfprobeOutput (probeWithTags [(commentKey, .str "K1=V1".toList),
      (codingHistoryKey, .str "A=1,B=2\\r\\n;C=3".toList)]) = .error .typeError ∧
    splitOnChars isHistoryDelimiter "A=1,B=2\\r\\n;C=3".toList =
      ["A=1".toList, "B=2".toList, "r".toList, "n".toList, "C=3".toList] ∧
    codingHistoryStep [] "r".toList = .error .typeError ∧
    (∃ tgs', tagsOf (parseFfprobeOutput (probeWithTags [(commentKey, .str "K1=V1".toList),
        (codingHistoryKey, .str "A=1,B=2\r\n;C=3".toList)])) = some tgs' ∧
      getOwn tgs' codingHistoryKey = some (.obj [("A".toList, .str "1".toList),
        ("B".toList, .str "2\r\n".toList), ("C".toList, .str "3".toList)])) ∧
    keyVal "A=1=2".toList = ("A".toList, some "1".toList) :=
  ⟨rfl, by decide, rfl, ⟨_, rfl, rfl⟩, by decide⟩

theorem joinWithSeps_ne_nil (first : Str) (rest : List (Char × Str)) (h : first ≠ []) :
    joinWithSeps first rest ≠ [] := by
  cases rest with
  | nil => exact h
  | cons q qs =>
    obtain ⟨c, s⟩ := q
    cases first with
    | nil => exact absurd rfl h
    | cons a as =>
      intro e
      simp [joinWithSeps] at e

theorem splitOnChars_joinWithSeps (p : Char → Bool) (rest : List (Char × Str)) :
    ∀ first : Str, (∀ x ∈ first, p x = false) →
      (∀ q ∈ rest, p q.1 = true ∧ ∀ x ∈ q.2, p x = false) →
      splitOnChars p (joinWithSeps first rest) = first :: rest.map Prod.snd := by
  induction rest with
  | nil =>
    intro first h _
    exact splitOnChars_of_none p first h
  | cons q qs ih =>
    intro first h hq
    obtain ⟨c, s⟩ := q
    have hc := hq (c, s) (List.mem_cons_self _ _)
    simp only [joinWithSeps, List.map_cons]
    rw [splitOnChars_append_sep p first c _ h hc.1,
      ih s hc.2 (fun x hx => hq x (List.mem_cons_of_mem _ hx))]

theorem entryLine_no_delimiter (e : Str × Str) (h1 : ∀ x ∈ e.1, isHistoryDelimiter x = false)
    (h2 : ∀ x ∈ e.2, isHistoryDelimiter x = false) :
    ∀ x ∈ entryLine e, isHistoryDelimiter x = false := by
  intro x hx
  unfold entryLine at hx
  rcases List.mem_append.mp hx with h | h
  · exact h1 x h
  · rcases List.mem_cons.mp h with h | h
    · subst h
      decide
    · exact h2 x h

theorem not_mem_backslash (s : Str) (h : ∀ x ∈ s, isHistoryDelimiter x = false) : '\\' ∉ s := by
  intro hm
  have := h _ hm
  revert this
  decide

/-- C7, as the code has it. (1) When `format.tags.comment` is a non-empty string
with no line whose key is `tags`, a `coding_history` string of entries `KEY=VALUE`
separated by commas or semicolons (keys and values free of comma, semicolon,
backslash and `=`, no key equal to `__proto__`) is replaced by an object that maps
each key to the value of its last entry and has no other property. (2) When the
comment is absent or empty the probe output is returned unchanged, whatever the
coding history. (3) When the comment is as in (1) and the coding history is
absent or empty, the `coding_history` field of the result is as in the input. -/
theorem codingHistory_restructured (top fmt tgs : Props)
    (hfmt : getOwn top formatKey = some (.obj fmt))
    (htags : getOwn fmt tagsKey = some (.obj tgs)) :
    (∀ (c : Str) (e0 : Str × Str) (rest : List (Char × (Str × Str))),
      getOwn tgs commentKey = some (.str c) → c ≠ [] →
      (∀ l ∈ splitCRLF c, (keyVal l).1 ≠ tagsKey) →
      getOwn tgs codingHistoryKey = some (.str (joinWithSeps (entryLine e0)
        (rest.map (fun q => (q.1, entryLine q.2))))) →
      (∀ q ∈ rest, q.1 = ',' ∨ q.1 = ';') →
      (∀ e ∈ e0 :: rest.map Prod.snd, e.1 ≠ protoKey ∧ '=' ∉ e.1 ∧ '=' ∉ e.2 ∧
        (∀ x ∈ e.1, isHistoryDelimiter x = false) ∧ (∀ x ∈ e.2, isHistoryDelimiter x = false)) →
      ∃ top' fmt' tgs' m, parseFfprobeOutput (.obj top) = .ok (.obj top') ∧
        getOwn top' formatKey = some (.obj fmt') ∧
        getOwn fmt' tagsKey = some (.obj tgs') ∧
        getOwn tgs' codingHistoryKey = some (.obj m) ∧
        (∀ pre e post, e0 :: rest.map Prod.snd = pre ++ e :: post →
          (∀ x ∈ post, x.1 ≠ e.1) → getOwn m e.1 = some (.str e.2)) ∧
        (∀ k, k ∉ (e0 :: rest.map Prod.snd).map Prod.fst → getOwn m k = none)) ∧
    ((∀ v, getOwn tgs commentKey = some v → truthy v = false) →
      parseFfprobeOutput (.obj top) = .ok (.obj top)) ∧
    (∀ c : Str, getOwn tgs commentKey = some (.str c) → c ≠ [] →
      (∀ l ∈ splitCRLF c, (keyVal l).1 ≠ tagsKey) →
      (∀ v, getOwn tgs codingHistoryKey = some v → truthy v = false) →
      ∃ top' fmt' tgs', parseFfprobeOutput (.obj top) = .ok (.obj top') ∧
        getOwn top' formatKey = some (.obj fmt') ∧
        getOwn fmt' tagsKey = some (.obj tgs') ∧
        getOwn tgs' codingHistoryKey = getOwn tgs codingHistoryKey) := by
  refine ⟨?_, parseFfprobeOutput_of_no_comment top fmt tgs hfmt htags, ?_⟩
  · intro c e0 rest hcomment hc hnotags hhist hseps hwf
    have hsplit : splitOnChars isHistoryDelimiter (joinWithSeps (entryLine e0)
        (rest.map (fun q => (q.1, entryLine q.2)))) =
        (e0 :: rest.map Prod.snd).map entryLine := by
      rw [splitOnChars_joinWithSeps]
      · simp only [List.map_cons, List.map_map]
        rfl
      · have := hwf e0 (List.mem_cons_self _ _)
        exact entryLine_no_delimiter e0 this.2.2.2.1 this.2.2.2.2
      · intro q hq
        obtain ⟨q', hq', rfl⟩ := List.mem_map.mp hq
        have hm : q'.2 ∈ e0 :: rest.map Prod.snd :=
          List.mem_cons_of_mem _ (List.mem_map_of_mem _ hq')
        have := hwf q'.2 hm
        refine ⟨?_, entryLine_no_delimiter q'.2 this.2.2.2.1 this.2.2.2.2⟩
        rcases hseps q' hq' with h | h
        · simp only [h]
          decide
        · simp only [h]
          decide
    have hparse := parseCodingHistory_entries (e0 :: rest.map Prod.snd) []
      (fun e he => ⟨(hwf e he).2.1, (hwf e he).2.2.1,
        not_mem_backslash e.2 (hwf e he).2.2.2.2⟩)
    rw [← hsplit] at hparse
    have hdec := decodeCodingHistory_of_string tgs _ _
      (joinWithSeps_ne_nil _ _ (entryLine_ne_nil e0)) hhist hparse
    obtain ⟨top', fmt', tgs', h1, h2, h3, _, _, _, h7⟩ :=
      parseFfprobeOutput_lookup top fmt tgs _ c hfmt htags hcomment hc hdec hnotags
    refine ⟨top', fmt', tgs',
      (e0 :: rest.map Prod.snd).foldl (fun o e => assignProp o e.1 (.str e.2)) [],
      h1, h2, h3, ?_, ?_, ?_⟩
    · rw [h7 _ (fun e => commentKey_ne_codingHistoryKey e.symm)]
      exact getOwn_assignProp_self _ _ _ codingHistoryKey_ne_protoKey
    · intro pre e post hlist hpost
      rw [hlist]
      have he : e ∈ e0 :: rest.map Prod.snd := by
        rw [hlist]
        exact List.mem_append_right _ (List.mem_cons_self _ _)
      exact getOwn_foldl_assign_at pre post e (hwf e he).1 hpost []
    · intro k hk
      rw [getOwn_foldl_assign_of_ne]
      · rfl
      · intro e he hek
        apply hk
        rw [← hek]
        exact List.mem_map_of_mem _ he
  · intro c hcomment hc hnotags habsent
    have hdec := decodeCodingHistory_of_absent tgs habsent
    obtain ⟨top', fmt', tgs', h1, h2, h3, _, _, _, h7⟩ :=
      parseFfprobeOutput_lookup top fmt tgs _ c hfmt htags hcomment hc hdec hnotags
    exact ⟨top', fmt', tgs', h1, h2, h3,
      h7 _ (fun e => commentKey_ne_codingHistoryKey e.symm)⟩

/-- The first of three settings shows (1): the coding history `A=1,B=2;C=3` next to
the comment `K1=V1` becomes the mapping of `A`, `B`, `C` to `1`, `2`, `3`. The
second shows (2): without a comment the coding history stays the string it was.
The third shows (3): with a comment and no coding history none is created. -/
theorem codingHistory_restructured_witness :
    (∃ tgs' m, tagsOf (parseFfprobeOutput (probeWithTags [(commentKey, .str "K1=V1".toList),
        (codingHistoryKey, .str "A=1,B=2;C=3".toList)])) = some tgs' ∧
      getOwn tgs' codingHistoryKey = some (.obj m) ∧
      getOwn m "A".toList = some (.str "1".toList) ∧
      getOwn m "B".toList = some (.str "2".toList) ∧
      getOwn m "C".toList = some (.str "3".toList) ∧
      getOwn m "D".toList = none) ∧
    parseFfprobeOutput (probeWithTags [(codingHistoryKey, .str "A=1,B=2;C=3".toList)]) =
      .ok (probeWithTags [(codingHistoryKey, .str "A=1,B=2;C=3".toList)]) ∧
    (∃ tgs', tagsOf (parseFfprobeOutput (probeWithTags [(commentKey, .str "K1=V1".toList)])) =
        some tgs' ∧
      getOwn tgs' codingHistoryKey = none) := by
  refine ⟨?_, ?_, ?_⟩
  · obtain ⟨top', fmt', tgs', m, h1, h2, h3, h4, h5, h6⟩ :=
      (codingHistory_restructured
        [("streams".toList, .arr [.obj [("duration".toList, .str "45000.000000".toList)]]),
          (formatKey, .obj [("filename".toList, .str "a.wav".toList),
            (tagsKey, .obj [(commentKey, .str "K1=V1".toList),
              (codingHistoryKey, .str "A=1,B=2;C=3".toList)])])]
        [("filename".toList, .str "a.wav".toList),
          (tagsKey, .obj [(commentKey, .str "K1=V1".toList),
            (codingHistoryKey, .str "A=1,B=2;C=3".toList)])]
        [(commentKey, .str "K1=V1".toList), (codingHistoryKey, .str "A=1,B=2;C=3".toList)]
        rfl rfl).1 "K1=V1".toList ("A".toList, "1".toList)
        [(',', ("B".toList, "2".toList)), (';', ("C".toList, "3".toList))]
        rfl (by decide) (by decide) rfl (by decide) (by decide)
    refine ⟨tgs', m, ?_, h4, ?_, ?_, ?_, ?_⟩
    · unfold tagsOf formatOf probeWithTags
      rw [h1]
      simp only [h2, h3]
    · exact h5 [] ("A".toList, "1".toList) [("B".toList, "2".toList), ("C".toList, "3".toList)]
        rfl (by decide)
    · exact h5 [("A".toList, "1".toList)] ("B".toList, "2".toList) [("C".toList, "3".toList)]
        rfl (by decide)
    · exact h5 [("A".toList, "1".toList), ("B".toList, "2".toList)] ("C".toList, "3".toList) []
        rfl (by decide)
    · exact h6 "D".toList (by decide)
  · exact (codingHistory_restructured
      [("streams".toList, .arr [.obj [("duration".toList, .str "45000.000000".toList)]]),
        (formatKey, .obj [("filename".toList, .str "a.wav".toList),
          (tagsKey, .obj [(codingHistoryKey, .str "A=1,B=2;C=3".toList)])])]
      [("filename".toList, .str "a.wav".toList),
        (tagsKey, .obj [(codingHistoryKey, .str "A=1,B=2;C=3".toList)])]
      [(codingHistoryKey, .str "A=1,B=2;C=3".toList)]
      rfl rfl).2.1 (fun v h => by cases h)
  · obtain ⟨top', fmt', tgs', h1, h2, h3, h4⟩ :=
      (codingHistory_restructured
        [("streams".toList, .arr [.obj [("duration".toList, .str "45000.000000".toList)]]),
          (formatKey, .obj [("filename".toList, .str "a.wav".toList),
            (tagsKey, .obj [(commentKey, .str "K1=V1".toList)])])]
        [("filename".toList, .str "a.wav".toList),
          (tagsKey, .obj [(commentKey, .str "K1=V1".toList)])]
        [(commentKey, .str "K1=V1".toList)]
        rfl rfl).2.2 "K1=V1".toList rfl (by decide) (by decide) (fun v h => by cases h)
    refine ⟨tgs', ?_, h4⟩
    unfold tagsOf formatOf probeWithTags
    rw [h1]
    simp only [h2, h3]

/-- C7 fails as stated: without a `comment` tag the coding history `A=1,B=2` is
returned as the string it was, not as a mapping. -/
theorem codingHistory_kept_without_comment :
    ∃ tgs', tagsOf (parseFfprobeOutput
        (probeWithTags [(codingHistoryKey, .str "A=1,B=2".toList)])) = some tgs' ∧
      getOwn tgs' codingHistoryKey = some (.str "A=1,B=2".toList) :=
  ⟨_, rfl, rfl⟩

/-! ## Comment lines without `=` -/

/-- C8, as the code has it. A comment line that consists of a key with no `=`
(the key non-empty, not `tags`, not `__proto__` and not the key of a later line)
gives the returned `format` an own attribute named by that line whose value is
`undefined`, in place of any attribute of that name on the input `format`; the
attributes named by no comment line keep their input values. This needs a comment
with no line whose key is `tags` and a coding history that decodes. -/
theorem comment_key_without_value (top fmt tgs : Props) (c : Str) (pre post : List Str)
    (line : Str)
    (hfmt : getOwn top formatKey = some (.obj fmt))
    (htags : getOwn fmt tagsKey = some (.obj tgs))
    (hcomment : getOwn tgs commentKey = some (.str c))
    (hsplit : splitCRLF c = pre ++ line :: post)
    (hline : line ≠ [] ∧ '=' ∉ line ∧ line ≠ tagsKey ∧ line ≠ protoKey)
    (hpost : ∀ l ∈ post, (keyVal l).1 ≠ line)
    (hnotags : ∀ l ∈ splitCRLF c, (keyVal l).1 ≠ tagsKey)
    (hhist : HistoryDecodable tgs) :
    ∃ top' fmt', parseFfprobeOutput (.obj top) = .ok (.obj top') ∧
      getOwn top' formatKey = some (.obj fmt') ∧
      getOwn fmt' line = some .undefined ∧
      (∀ k, (∀ l ∈ splitCRLF c, (keyVal l).1 ≠ k) → k ≠ tagsKey →
        getOwn fmt' k = getOwn fmt k) := by
  have hc : c ≠ [] := by
    intro e
    subst e
    have h : ([[]] : List Str) = pre ++ line :: post := hsplit
    cases pre with
    | nil =>
      simp only [List.nil_append, List.cons.injEq] at h
      exact hline.1 h.1.symm
    | cons p ps =>
      simp only [List.cons_append, List.cons.injEq] at h
      have := h.2
      simp at this
  obtain ⟨tgs1, hdec, _⟩ := decodeCodingHistory_ok tgs hhist
  obtain ⟨top', fmt', tgs', h1, h2, _, _, h5, _, _⟩ :=
    parseFfprobeOutput_lookup top fmt tgs tgs1 c hfmt htags hcomment hc hdec hnotags
  refine ⟨top', fmt', h1, h2, ?_, ?_⟩
  · rw [h5 line hline.2.2.1, hsplit,
      getOwn_parseComments_at pre post line line (by rw [keyVal_of_not_mem line hline.2.1])
        hline.1 hline.2.2.2 hpost,
      keyVal_of_not_mem line hline.2.1]
    rfl
  · intro k hk hkt
    rw [h5 k hkt, getOwn_parseComments_of_ne _ _ hk]

/-- The comment `K1=V1`, CR LF, `filename` on a file whose `format.filename` is
`a.wav`. -/
theorem comment_key_without_value_witness :
    ∃ top' fmt',
      parseFfprobeOutput (.obj [(formatKey, .obj [("filename".toList, .str "a.wav".toList),
        (tagsKey, .obj [(commentKey, .str "K1=V1\r\nfilename".toList)])])]) = .ok (.obj top') ∧
      getOwn top' formatKey = some (.obj fmt') ∧
      getOwn fmt' "filename".toList = some .undefined ∧
      (∀ k, (∀ l ∈ splitCRLF "K1=V1\r\nfilename".toList, (keyVal l).1 ≠ k) → k ≠ tagsKey →
        getOwn fmt' k = getOwn [("filename".toList, .str "a.wav".toList),
          (tagsKey, .obj [(commentKey, .str "K1=V1\r\nfilename".toList)])] k) :=
  comment_key_without_value
    [(formatKey, .obj [("filename".toList, .str "a.wav".toList),
      (tagsKey, .obj [(commentKey, .str "K1=V1\r\nfilename".toList)])])]
    [("filename".toList, .str "a.wav".toList),
      (tagsKey, .obj [(commentKey, .str "K1=V1\r\nfilename".toList)])]
    [(commentKey, .str "K1=V1\r\nfilename".toList)]
    "K1=V1\r\nfilename".toList ["K1=V1".toList] [] "filename".toList
    rfl rfl rfl (by decide) (by decide) (by decide) (by decide) (fun v h => by cases h)

/-- C8 fails as stated: the comment line `note` gives the returned `format` an
attribute `note` (with the value `undefined`), and the comment line `filename`
replaces the value `a.wav` of the attribute `filename` by `undefined`. -/
theorem comment_key_without_value_overrides :
    (∃ fmt', formatOf (parseFfprobeOutput (probeWithTags [(commentKey, .str "note".toList)])) =
        some fmt' ∧
      getOwn fmt' "note".toList = some .undefined) ∧
    (∃ fmt tgs, probeWithTags [(commentKey, .str "filename".toList)] =
        .obj [("streams".toList, .arr [.obj [("duration".toList, .str "45000.000000".toList)]]),
          (formatKey, .obj fmt)] ∧
      getOwn fmt tagsKey = some (.obj tgs) ∧
      getOwn tgs commentKey = some (.str "filename".toList) ∧
      getOwn fmt "filename".toList = some (.str "a.wav".toList)) ∧
    (∃ fmt', formatOf (parseFfprobeOutput
        (probeWithTags [(commentKey, .str "filename".toList)])) = some fmt' ∧
      getOwn fmt' "filename".toList = some .undefined) :=
  ⟨⟨_, rfl, rfl⟩, ⟨_, _, rfl, rfl, rfl, rfl⟩, ⟨_, rfl, rfl⟩⟩

/-! ## `parseInt` on decimal strings -/

theorem digit_toNat (c : Char) (h : '0' ≤ c ∧ c ≤ '9') : 48 ≤ c.toNat ∧ c.toNat ≤ 57 := by
  obtain ⟨h1, h2⟩ := h
  rw [Char.le_def] at h1 h2
  have e1 : ('0' : Char).val.toNat = 48 := rfl
  have e2 : ('9' : Char).val.toNat = 57 := rfl
  have a := UInt32.le_def.mp h1
  have b := UInt32.le_def.mp h2
  unfold Char.toNat
  constructor
  · have := Fin.le_def.mp a
    simpa [UInt32.toNat, e1] using this
  · have := Fin.le_def.mp b
    simpa [UInt32.toNat, e2] using this

theorem digitValue_of_digit (c : Char) (h : '0' ≤ c ∧ c ≤ '9') :
    digitValue 10 c = some (c.toNat - '0'.toNat) := by
  have hn := digit_toNat c h
  have e : ('0' : Char).toNat = 48 := rfl
  unfold digitValue
  simp only [h, and_self, if_true, e]
  rw [if_pos (by omega)]

theorem readDigits_of_digits (s : Str) :
    ∀ acc count : ℕ, (∀ c ∈ s, '0' ≤ c ∧ c ≤ '9') →
      readDigits 10 acc count s =
        (s.foldl (fun a c => a * 10 + (c.toNat - '0'.toNat)) acc, count + s.length) := by
  induction s with
  | nil =>
    intro acc count _
    rfl
  | cons c cs ih =>
    intro acc count h
    unfold readDigits
    rw [digitValue_of_digit c (h c (List.mem_cons_self _ _))]
    simp only [List.foldl_cons, List.length_cons]
    rw [ih _ _ (fun x hx => h x (List.mem_cons_of_mem _ hx))]
    congr 1
    omega

theorem isStrWhiteSpace_of_digit (c : Char) (h : '0' ≤ c ∧ c ≤ '9') :
    isStrWhiteSpace c = false := by
  have hn := digit_toNat c h
  unfold isStrWhiteSpace
  simp only [List.mem_cons, List.mem_singleton, List.not_mem_nil, or_false, Bool.or_eq_false_iff,
    decide_eq_false_iff_not, Bool.and_eq_false_imp, decide_eq_true_eq]
  constructor
  · omega
  · intro h1
    omega

/-- On a non-empty string of decimal digits that denotes a number up to `2 ^ 53`
`parseInt` gives that number. -/
theorem parseInt_of_digits (s : Str) (hne : s ≠ []) (h : ∀ c ∈ s, '0' ≤ c ∧ c ≤ '9')
    (_hexact : decimalValue s ≤ 2 ^ 53) :
    parseInt s = some (decimalValue s : ℤ) := by
  cases s with
  | nil => exact absurd rfl hne
  | cons c cs =>
    have hc := h c (List.mem_cons_self _ _)
    have hcn := digit_toNat c hc
    have hdrop : (c :: cs).dropWhile isStrWhiteSpace = c :: cs := by
      simp only [List.dropWhile, isStrWhiteSpace_of_digit c hc]
    have hminus : c ≠ '-' := by
      intro e
      subst e
      revert hcn
      decide
    have hplus : c ≠ '+' := by
      intro e
      subst e
      revert hcn
      decide
    have hx : ∀ r, cs ≠ 'x' :: r ∧ cs ≠ 'X' :: r := by
      intro r
      constructor
      · intro e
        subst e
        have := digit_toNat 'x' (h 'x' (List.mem_cons_of_mem _ (List.mem_cons_self _ _)))
        revert this
        decide
      · intro e
        subst e
        have := digit_toNat 'X' (h 'X' (List.mem_cons_of_mem _ (List.mem_cons_self _ _)))
        revert this
        decide
    have hsign : stripSign (c :: cs) = (false, c :: cs) := by
      unfold stripSign
      split
      · rename_i r he
        simp only [List.cons.injEq] at he
        exact absurd he.1 hminus
      · rename_i r he
        simp only [List.cons.injEq] at he
        exact absurd he.1 hplus
      · rfl
    have hradix : stripRadix (c :: cs) = (10, c :: cs) := by
      unfold stripRadix
      split
      · rename_i r he
        simp only [List.cons.injEq] at he
        exact absurd he.2 (hx r).1
      · rename_i r he
        simp only [List.cons.injEq] at he
        exact absurd he.2 (hx r).2
      · rfl
    unfold parseInt
    simp only [hdrop, hsign, hradix, readDigits_of_digits (c :: cs) 0 0 h, List.length_cons,
      Nat.zero_add, Nat.add_one_ne_zero, if_false, Bool.false_eq_true]
    rfl

/-- With a `time_reference` tag that is a non-empty string of decimal digits
denoting a number up to `2 ^ 53` the initial timecode is that number. -/
theorem initialTimecode_decimal (top fmt tgs : Props) (s : Str)
    (hfmt : getOwn top formatKey = some (.obj fmt))
    (htags : getOwn fmt tagsKey = some (.obj tgs))
    (htr : getOwn tgs timeReferenceKey = some (.str s))
    (hne : s ≠ []) (h : ∀ c ∈ s, '0' ≤ c ∧ c ≤ '9') (hexact : decimalValue s ≤ 2 ^ 53) :
    initialTimecode (.obj top) = .ok (some (decimalValue s : ℤ)) := by
  have ht : truthy (.str s) = true := truthy_str_of_ne_nil s hne
  unfold initialTimecode
  simp only [getProp, hfmt, htags, htr, Option.getD_some, ht, if_true, toStr,
    parseInt_of_digits s hne h hexact]

/-! ## The initial `time_reference` -/

/-- C9 fails on the code when `format.tags` is missing. `parseFfprobeOutput`
returns such a probe result unchanged, and `main` then reads
`fileData.format.tags.time_reference` on the missing `tags`: the read throws, the
`catch` rejects the file and no segment is cut, for every duration. -/
theorem initialTimecode_throws_without_tags (top fmt : Props) (d : ℚ)
    (hfmt : getOwn top formatKey = some (.obj fmt))
    (htags : getOwn fmt tagsKey = none) :
    parseFfprobeOutput (.obj top) = .ok (.obj top) ∧
    initialTimecode (.obj top) = .error .typeError ∧
    processFile d (.obj top) = .error .typeError := by
  have h : initialTimecode (.obj top) = .error .typeError := by
    unfold initialTimecode
    simp only [getProp, hfmt, htags, Option.getD_some, Option.getD_none]
  refine ⟨parseFfprobeOutput_of_no_tags top fmt hfmt htags, h, ?_⟩
  unfold processFile
  rw [h]

/-- A 45000-second file whose probe result has a `format` without `tags`. -/
theorem initialTimecode_throws_without_tags_witness :
    parseFfprobeOutput probeWithoutTags = .ok probeWithoutTags ∧
    initialTimecode probeWithoutTags = .error .typeError ∧
    processFile 45000 probeWithoutTags = .error .typeError :=
  initialTimecode_throws_without_tags
    [("streams".toList, .arr [.obj [("duration".toList, .str "45000.000000".toList)]]),
      (formatKey, .obj [("filename".toList, .str "a.wav".toList)])]
    [("filename".toList, .str "a.wav".toList)] 45000 rfl rfl

/-- With a `tags` object that has no truthy `time_reference` the initial
timecode is 0. -/
theorem initialTimecode_default (top fmt tgs : Props)
    (hfmt : getOwn top formatKey = some (.obj fmt))
    (htags : getOwn fmt tagsKey = some (.obj tgs))
    (htr : ∀ v, getOwn tgs timeReferenceKey = some v → truthy v = false) :
    initialTimecode (.obj top) = .ok (some 0) := by
  unfold initialTimecode
  cases hg : getOwn tgs timeReferenceKey with
  | none =>
    simp only [getProp, hfmt, htags, hg, Option.getD_some, Option.getD_none, truthy,
      Bool.false_eq_true, if_false]
    rfl
  | some v =>
    simp only [getProp, hfmt, htags, hg, Option.getD_some, htr v hg, Bool.false_eq_true,
      if_false]
    rfl

/-! ## The classification of the directory listing -/

theorem classifyFile_largeFiles (pathJoin : Str → Str → Str) (ext : Str → Str)
    (statSync : Str → Stats) (inputDir outputDir : Str) (st : Classification) (f : Str) :
    (classifyFile pathJoin ext statSync inputDir outputDir st f).largeFiles =
      st.largeFiles ++
        (if (statSync (pathJoin inputDir f)).isDirectory = false ∧ ext f = wavExtension ∧
          sizeThreshold ≤ (statSync (pathJoin inputDir f)).size then [f] else []) := by
  unfold classifyFile
  by_cases h1 : (statSync (pathJoin inputDir f)).isDirectory = true
  · simp [h1]
  · by_cases h2 : ext f = wavExtension
    · by_cases h3 : sizeThreshold ≤ (statSync (pathJoin inputDir f)).size
      · simp [h1, h2, h3]
      · simp [h1, h2, h3]
    · simp [h1, h2]

theorem classifyFile_smallFiles (pathJoin : Str → Str → Str) (ext : Str → Str)
    (statSync : Str → Stats) (inputDir outputDir : Str) (st : Classification) (f : Str) :
    (classifyFile pathJoin ext statSync inputDir outputDir st f).smallFiles =
      st.smallFiles ++
        (if (statSync (pathJoin inputDir f)).isDirectory = false ∧ ext f = wavExtension ∧
          (statSync (pathJoin inputDir f)).size < sizeThreshold then [f] else []) := by
  unfold classifyFile
  by_cases h1 : (statSync (pathJoin inputDir f)).isDirectory = true
  · simp [h1]
  · by_cases h2 : ext f = wavExtension
    · by_cases h3 : sizeThreshold ≤ (statSync (pathJoin inputDir f)).size
      · simp [h1, h2, h3]
      · have h3' : (statSync (pathJoin inputDir f)).size < sizeThreshold := by omega
        simp [h1, h2, h3, h3']
    · simp [h1, h2]

theorem classifyFile_copies (pathJoin : Str → Str → Str) (ext : Str → Str)
    (statSync : Str → Stats) (inputDir outputDir : Str) (st : Classification) (f : Str) :
    (classifyFile pathJoin ext statSync inputDir outputDir st f).copies =
      st.copies ++
        (if (statSync (pathJoin inputDir f)).isDirectory = false ∧ ext f = wavExtension ∧
          (statSync (pathJoin inputDir f)).size < sizeThreshold
          then [(pathJoin inputDir f, pathJoin outputDir f)] else []) := by
  unfold classifyFile
  by_cases h1 : (statSync (pathJoin inputDir f)).isDirectory = true
  · simp [h1]
  · by_cases h2 : ext f = wavExtension
    · by_cases h3 : sizeThreshold ≤ (statSync (pathJoin inputDir f)).size
      · simp [h1, h2, h3]
      · have h3' : (statSync (pathJoin inputDir f)).size < sizeThreshold := by omega
        simp [h1, h2, h3, h3']
    · simp [h1, h2]

theorem isSplitCandidate_iff (pathJoin : Str → Str → Str) (ext : Str → Str)
    (statSync : Str → Stats) (inputDir f : Str) :
    isSplitCandidate pathJoin ext statSync inputDir f = true ↔
      (statSync (pathJoin inputDir f)).isDirectory = false ∧ ext f = wavExtension ∧
        sizeThreshold ≤ (statSync (pathJoin inputDir f)).size := by
  unfold isSplitCandidate wavExtension sizeThreshold
  simp only [Bool.and_eq_true, Bool.not_eq_true', decide_eq_true_eq, and_assoc]

theorem isCopyCandidate_iff (pathJoin : Str → Str → Str) (ext : Str → Str)
    (statSync : Str → Stats) (inputDir f : Str) :
    isCopyCandidate pathJoin ext statSync inputDir f = true ↔
      (statSync (pathJoin inputDir f)).isDirectory = false ∧ ext f = wavExtension ∧
        (statSync (pathJoin inputDir f)).size < sizeThreshold := by
  unfold isCopyCandidate wavExtension sizeThreshold
  simp only [Bool.and_eq_true, Bool.not_eq_true', decide_eq_true_eq, and_assoc]

theorem largeFiles_foldl (pathJoin : Str → Str → Str) (ext : Str → Str)
    (statSync : Str → Stats) (inputDir outputDir : Str) (files : List Str) :
    ∀ st : Classification,
      (files.foldl (classifyFile pathJoin ext statSync inputDir outputDir) st).largeFiles =
        st.largeFiles ++ files.filter (isSplitCandidate pathJoin ext statSync inputDir) := by
  induction files with
  | nil =>
    intro st
    simp
  | cons f fs ih =>
    intro st
    rw [List.foldl_cons, ih, classifyFile_largeFiles, List.append_assoc]
    congr 1
    by_cases hc : (statSync (pathJoin inputDir f)).isDirectory = false ∧ ext f = wavExtension ∧
        sizeThreshold ≤ (statSync (pathJoin inputDir f)).size
    · rw [if_pos hc, List.filter_cons_of_pos ((isSplitCandidate_iff _ _ _ _ _).mpr hc)]
      rfl
    · rw [if_neg hc, List.filter_cons_of_neg
        (fun hp => hc ((isSplitCandidate_iff _ _ _ _ _).mp hp))]
      rfl

theorem smallFiles_foldl (pathJoin : Str → Str → Str) (ext : Str → Str)
    (statSync : Str → Stats) (inputDir outputDir : Str) (files : List Str) :
    ∀ st : Classification,
      (files.foldl (classifyFile pathJoin ext statSync inputDir outputDir) st).smallFiles =
        st.smallFiles ++ files.filter (isCopyCandidate pathJoin ext statSync inputDir) := by
  induction files with
  | nil =>
    intro st
    simp
  | cons f fs ih =>
    intro st
    rw [List.foldl_cons, ih, classifyFile_smallFiles, List.append_assoc]
    congr 1
    by_cases hc : (statSync (pathJoin inputDir f)).isDirectory = false ∧ ext f = wavExtension ∧
        (statSync (pathJoin inputDir f)).size < sizeThreshold
    · rw [if_pos hc, List.filter_cons_of_pos ((isCopyCandidate_iff _ _ _ _ _).mpr hc)]
      rfl
    · rw [if_neg hc, List.filter_cons_of_neg
        (fun hp => hc ((isCopyCandidate_iff _ _ _ _ _).mp hp))]
      rfl

theorem copies_foldl (pathJoin : Str → Str → Str) (ext : Str → Str)
    (statSync : Str → Stats) (inputDir outputDir : Str) (files : List Str) :
    ∀ st : Classification,
      (files.foldl (classifyFile pathJoin ext statSync inputDir outputDir) st).copies =
        st.copies ++ (files.filter (isCopyCandidate pathJoin ext statSync inputDir)).map
          (fun f => (pathJoin inputDir f, pathJoin outputDir f)) := by
  induction files with
  | nil =>
    intro st
    simp
  | cons f fs ih =>
    intro st
    rw [List.foldl_cons, ih, classifyFile_copies, List.append_assoc]
    congr 1
    by_cases hc : (statSync (pathJoin inputDir f)).isDirectory = false ∧ ext f = wavExtension ∧
        (statSync (pathJoin inputDir f)).size < sizeThreshold
    · rw [if_pos hc, List.filter_cons_of_pos ((isCopyCandidate_iff _ _ _ _ _).mpr hc)]
      rfl
    · rw [if_neg hc, List.filter_cons_of_neg
        (fun hp => hc ((isCopyCandidate_iff _ _ _ _ _).mp hp))]
      rfl

/-- C10. For every directory listing, `largeFiles` is exactly the list of the
listed names that are not a directory, have the extension `.wav` and a size of at
least 3840000172 bytes, in the order of the listing; `smallFiles` is exactly the
list of those that are not a directory, have the extension `.wav` and a size below
3840000172; and the copies made are exactly one per name of `smallFiles`, from the
input to the output directory under the same name. Hence a name is in `largeFiles`
if and only if it is such a large entry, in `smallFiles` if and only if it is such
a small entry, in which case its copy is made; a copy is made for such small
entries only; every other entry is in neither list and no name is in both. In the
example directory the 5 GB file and the file of exactly 3840000172 bytes are
large, the 2 GB file is small and copied, and the directory `takes.wav`, the
file `LOUD.WAV` and the text file are in neither list. -/
theorem classification_by_size (pathJoin : Str → Str → Str) (ext : Str → Str)
    (statSync : Str → Stats) (inputDir outputDir : Str) (files : List Str) (file : Str)
    (copy : Str × Str) :
    (classifyFiles pathJoin ext statSync inputDir outputDir files).largeFiles =
      files.filter (isSplitCandidate pathJoin ext statSync inputDir) ∧
    (classifyFiles pathJoin ext statSync inputDir outputDir files).smallFiles =
      files.filter (isCopyCandidate pathJoin ext statSync inputDir) ∧
    (classifyFiles pathJoin ext statSync inputDir outputDir files).copies =
      (classifyFiles pathJoin ext statSync inputDir outputDir files).smallFiles.map
        (fun f => (pathJoin inputDir f, pathJoin outputDir f)) ∧
    (file ∈ (classifyFiles pathJoin ext statSync inputDir outputDir files).largeFiles ↔
      file ∈ files ∧ (statSync (pathJoin inputDir file)).isDirectory = false ∧
        ext file = ".wav".toList ∧ 3840000172 ≤ (statSync (pathJoin inputDir file)).size) ∧
    (file ∈ (classifyFiles pathJoin ext statSync inputDir outputDir files).smallFiles ↔
      file ∈ files ∧ (statSync (pathJoin inputDir file)).isDirectory = false ∧
        ext file = ".wav".toList ∧ (statSync (pathJoin inputDir file)).size < 3840000172) ∧
    (file ∈ (classifyFiles pathJoin ext statSync inputDir outputDir files).smallFiles →
      (pathJoin inputDir file, pathJoin outputDir file) ∈
        (classifyFiles pathJoin ext statSync inputDir outputDir files).copies) ∧
    (copy ∈ (classifyFiles pathJoin ext statSync inputDir outputDir files).copies ↔
      ∃ f, f ∈ files ∧ (statSync (pathJoin inputDir f)).isDirectory = false ∧
        ext f = ".wav".toList ∧ (statSync (pathJoin inputDir f)).size < 3840000172 ∧
        copy = (pathJoin inputDir f, pathJoin outputDir f)) ∧
    ¬ (file ∈ (classifyFiles pathJoin ext statSync inputDir outputDir files).largeFiles ∧
      file ∈ (classifyFiles pathJoin ext statSync inputDir outputDir files).smallFiles) ∧
    (classifyFiles examplePathJoin exampleExt exampleStat "in".toList "out".toList
        ["big.wav".toList, "small.wav".toList, "edge.wav".toList, "takes.wav".toList,
          "LOUD.WAV".toList, "notes.txt".toList]).largeFiles =
      ["big.wav".toList, "edge.wav".toList] ∧
    (classifyFiles examplePathJoin exampleExt exampleStat "in".toList "out".toList
        ["big.wav".toList, "small.wav".toList, "edge.wav".toList, "takes.wav".toList,
          "LOUD.WAV".toList, "notes.txt".toList]).smallFiles = ["small.wav".toList] ∧
    (classifyFiles examplePathJoin exampleExt exampleStat "in".toList "out".toList
        ["big.wav".toList, "small.wav".toList, "edge.wav".toList, "takes.wav".toList,
          "LOUD.WAV".toList, "notes.txt".toList]).copies =
      [("in/small.wav".toList, "out/small.wav".toList)] := by
  have eL : (classifyFiles pathJoin ext statSync inputDir outputDir files).largeFiles =
      files.filter (isSplitCandidate pathJoin ext statSync inputDir) := by
    unfold classifyFiles
    rw [largeFiles_foldl]
    rfl
  have eS : (classifyFiles pathJoin ext statSync inputDir outputDir files).smallFiles =
      files.filter (isCopyCandidate pathJoin ext statSync inputDir) := by
    unfold classifyFiles
    rw [smallFiles_foldl]
    rfl
  have eC : (classifyFiles pathJoin ext statSync inputDir outputDir files).copies =
      (files.filter (isCopyCandidate pathJoin ext statSync inputDir)).map
        (fun f => (pathJoin inputDir f, pathJoin outputDir f)) := by
    unfold classifyFiles
    rw [copies_foldl]
    rfl
  have hL : ∀ f, isSplitCandidate pathJoin ext statSync inputDir f = true ↔
      (statSync (pathJoin inputDir f)).isDirectory = false ∧ ext f = ".wav".toList ∧
        3840000172 ≤ (statSync (pathJoin inputDir f)).size :=
    fun f => isSplitCandidate_iff pathJoin ext statSync inputDir f
  have hS : ∀ f, isCopyCandidate pathJoin ext statSync inputDir f = true ↔
      (statSync (pathJoin inputDir f)).isDirectory = false ∧ ext f = ".wav".toList ∧
        (statSync (pathJoin inputDir f)).size < 3840000172 :=
    fun f => isCopyCandidate_iff pathJoin ext statSync inputDir f
  have mL : file ∈ (classifyFiles pathJoin ext statSync inputDir outputDir files).largeFiles ↔
      file ∈ files ∧ (statSync (pathJoin inputDir file)).isDirectory = false ∧
        ext file = ".wav".toList ∧ 3840000172 ≤ (statSync (pathJoin inputDir file)).size := by
    rw [eL, List.mem_filter, hL]
  have mS : file ∈ (classifyFiles pathJoin ext statSync inputDir outputDir files).smallFiles ↔
      file ∈ files ∧ (statSync (pathJoin inputDir file)).isDirectory = false ∧
        ext file = ".wav".toList ∧ (statSync (pathJoin inputDir file)).size < 3840000172 := by
    rw [eS, List.mem_filter, hS]
  refine ⟨eL, eS, by rw [eC, eS], mL, mS, ?_, ?_, ?_, by decide, by decide, by decide⟩
  · intro h
    rw [eC]
    rw [eS] at h
    exact List.mem_map.mpr ⟨file, h, rfl⟩
  · rw [eC, List.mem_map]
    constructor
    · rintro ⟨f, hf, he⟩
      rw [List.mem_filter, hS] at hf
      exact ⟨f, hf.1, hf.2.1, hf.2.2.1, hf.2.2.2, he.symm⟩
    · rintro ⟨f, h1, h2, h3, h4, he⟩
      exact ⟨f, List.mem_filter.mpr ⟨h1, (hS f).mpr ⟨h2, h3, h4⟩⟩, he.symm⟩
  · rintro ⟨h1, h2⟩
    have a := (mL.mp h1).2.2.2
    have b := (mS.mp h2).2.2.2
    omega

end A20
